import Mathlib

/-!
Verification of the zpp::serializer binary serialization core
(`src/serializer.h`) against its natural-language specification.

The development shallowly embeds the serializer:

* bytes are `Nat` values `< 256`, buffers are `List Nat`;
* the appending output archive (`lazy_vector_memory_output_archive` and its
  fitting wrapper `memory_output_archive`) is an explicit state machine on
  `OutState`;
* the view input archive (`memory_view_input_archive`) is a function of the
  borrowed byte list and the cursor offset; the consuming archive
  (`memory_input_archive`) wraps it and erases consumed bytes;
* the family of supported value shapes (scalars, enums, fixed arrays, tuples,
  pairs, resizable sequences, associative containers, owning pointers) is the
  universe `Ty` of type descriptions together with untyped values `Val` and a
  well-formedness predicate `wf`;
* the polymorphic registry is an association-list pair mirroring the two
  `unordered_map`s of `registry<Archive>`;
* `make_id` is the source's compile-time SHA-1 translated to `Nat` arithmetic
  with explicit `% 2^w` truncations.

Machine integers are modelled as `Nat` with explicit `% 2 ^ w` where the C++
performs a conversion or an overflowing operation.  All encodings fix the
little-endian host convention ("same platform" in the spec).
-/

namespace ZppSer

/-! ## Byte primitives

`scalarBytes w v` is the byte image (least significant byte first, the
little-endian host convention) left by `memcpy` of a `w`-byte scalar holding
value `v`; `bytesToScalar` is the reverse `memcpy`. -/

def scalarBytes : Nat → Nat → List Nat
  | 0, _ => []
  | w + 1, v => v % 256 :: scalarBytes w (v / 256)

def bytesToScalar : List Nat → Nat
  | [] => 0
  | b :: rest => b % 256 + 256 * bytesToScalar rest

@[simp] theorem scalarBytes_length (w v : Nat) : (scalarBytes w v).length = w := by
  induction w generalizing v with
  | zero => rfl
  | succ w ih => simp [scalarBytes, ih]

theorem bytesToScalar_scalarBytes (w v : Nat) :
    bytesToScalar (scalarBytes w v) = v % 2 ^ (8 * w) := by
  induction w generalizing v with
  | zero => simp [scalarBytes, bytesToScalar, Nat.mod_one]
  | succ w ih =>
    have h : (2 : Nat) ^ (8 * (w + 1)) = 256 * 2 ^ (8 * w) := by ring
    rw [scalarBytes, bytesToScalar, ih, h, Nat.mod_mul]
    omega

theorem bytesToScalar_lt (bs : List Nat) : bytesToScalar bs < 2 ^ (8 * bs.length) := by
  induction bs with
  | nil => simp [bytesToScalar]
  | cons b rest ih =>
    have h : (2 : Nat) ^ (8 * (rest.length + 1)) = 256 * 2 ^ (8 * rest.length) := by ring
    have hb : b % 256 < 256 := Nat.mod_lt _ (by norm_num)
    simp only [bytesToScalar, List.length_cons, h]
    omega

theorem scalarBytes_bytesToScalar (bs : List Nat) (h : ∀ b ∈ bs, b < 256) :
    scalarBytes bs.length (bytesToScalar bs) = bs := by
  induction bs with
  | nil => rfl
  | cons b rest ih =>
    have hb : b < 256 := h b (by simp)
    have hrest : ∀ x ∈ rest, x < 256 := fun x hx => h x (by simp [hx])
    simp only [List.length_cons, scalarBytes, bytesToScalar]
    have h1 : (b % 256 + 256 * bytesToScalar rest) % 256 = b := by omega
    have h2 : (b % 256 + 256 * bytesToScalar rest) / 256 = bytesToScalar rest := by omega
    rw [h1, h2, ih hrest]

/-! ## Errors

The exception taxonomy of the serializer (`out_of_range`,
`undeclared_polymorphic_type_error`, `attempt_to_serialize_null_pointer_error`,
`polymorphic_type_mismatch_error`), plus `badCast` for the `std::bad_cast`
that a saving serialization method's `dynamic_cast` may raise, and
`handlerFailure` standing for an arbitrary exception raised by a user-provided
serialization handler. -/

inductive Err where
  | outOfRange
  | undeclaredPolymorphicType
  | attemptToSerializeNull
  | polymorphicTypeMismatch
  | badCast
  | handlerFailure
  deriving DecidableEq, Repr

/-! ## The output archives

`OutState` is the observable state of a `lazy_vector_memory_output_archive`:
the target vector (`out`, the field `m_output`) and the logical size
(`size`, the field `m_size`).  `vecResize` is `std::vector::resize` (new
elements value-initialized to zero), `writeAt` is the `std::copy_n` to
`data() + m_size`. -/

structure OutState where
  out : List Nat
  size : Nat
  deriving DecidableEq, Repr

def vecResize (l : List Nat) (n : Nat) : List Nat :=
  if n ≤ l.length then l.take n else l ++ List.replicate (n - l.length) 0

@[simp] theorem vecResize_length (l : List Nat) (n : Nat) : (vecResize l n).length = n := by
  unfold vecResize
  split <;> simp <;> omega

def writeAt (l : List Nat) (pos : Nat) (bs : List Nat) : List Nat :=
  l.take pos ++ bs ++ l.drop (pos + bs.length)

/-- `lazy_vector_memory_output_archive::serialize`: grow the vector with the
`(m_size + k) * 3 / 2` policy when needed, copy the bytes at `m_size`, and
advance `m_size`.  Both the scalar overload and the binary-data overload
reduce to appending a byte run. -/
def lazySerialize (s : OutState) (bs : List Nat) : OutState :=
  if s.size + bs.length > s.out.length then
    ⟨writeAt (vecResize s.out ((s.size + bs.length) * 3 / 2)) s.size bs,
      s.size + bs.length⟩
  else
    ⟨writeAt s.out s.size bs, s.size + bs.length⟩

/-- `lazy_vector_memory_output_archive::fit_vector`: truncate (or pad) the
vector to the logical size. -/
def fit_vector (s : OutState) : OutState :=
  ⟨vecResize s.out s.size, s.size⟩

/-- `memory_output_archive::operator()`: construct the lazy archive over the
buffer (`m_size` starts at `output.size()`), run the serialization action, and
fit the vector on both the normal and the exceptional return path.  The
action is the body `base::operator()(items...)`; an exception carries the
archive state at the point of the throw. -/
def memOutRun (action : OutState → Except (Err × OutState) OutState)
    (buf : List Nat) : Except (Err × OutState) OutState :=
  match action ⟨buf, buf.length⟩ with
  | .ok s => .ok (fit_vector s)
  | .error (e, s) => .error (e, fit_vector s)

/-- The state carried by either outcome of an archive call. -/
def resultState : Except (Err × OutState) OutState → OutState
  | .ok s => s
  | .error (_, s) => s

theorem take_vecResize (l : List Nat) (n k : Nat) (hk : k ≤ n) (hkl : k ≤ l.length) :
    (vecResize l n).take k = l.take k := by
  unfold vecResize
  split
  · rw [List.take_take, Nat.min_eq_left hk]
  · rw [List.take_append_of_le_length hkl]

theorem writeAt_length (l : List Nat) (pos : Nat) (bs : List Nat)
    (h : pos + bs.length ≤ l.length) : (writeAt l pos bs).length = l.length := by
  simp only [writeAt, List.length_append, List.length_take, List.length_drop]
  omega

theorem take_writeAt (l : List Nat) (pos : Nat) (bs : List Nat) (h : pos ≤ l.length) :
    (writeAt l pos bs).take (pos + bs.length) = l.take pos ++ bs := by
  unfold writeAt
  have hA : (l.take pos).length = pos := by simp [h]
  rw [List.append_assoc,
    show pos + bs.length = (l.take pos).length + bs.length by rw [hA],
    List.take_append, List.take_left]

theorem lazySerialize_spec (s : OutState) (bs : List Nat)
    (h : s.size ≤ s.out.length) :
    (lazySerialize s bs).size = s.size + bs.length ∧
      (lazySerialize s bs).size ≤ (lazySerialize s bs).out.length ∧
      (lazySerialize s bs).out.take (s.size + bs.length)
        = s.out.take s.size ++ bs := by
  unfold lazySerialize
  by_cases hg : s.size + bs.length > s.out.length
  · rw [if_pos hg]
    have hlen : (vecResize s.out ((s.size + bs.length) * 3 / 2)).length
        = (s.size + bs.length) * 3 / 2 := vecResize_length _ _
    have hge : s.size + bs.length ≤ (s.size + bs.length) * 3 / 2 := by omega
    refine ⟨rfl, ?_, ?_⟩
    · show s.size + bs.length ≤ (writeAt (vecResize _ _) s.size bs).length
      rw [writeAt_length _ _ _ (by omega)]
      omega
    · show (writeAt (vecResize _ _) s.size bs).take (s.size + bs.length) = _
      rw [take_writeAt _ _ _ (by omega),
        take_vecResize _ _ _ (by omega) (by omega)]
  · rw [if_neg hg]
    push_neg at hg
    refine ⟨rfl, ?_, ?_⟩
    · show s.size + bs.length ≤ (writeAt s.out s.size bs).length
      rw [writeAt_length _ _ _ (by omega)]
      omega
    · show (writeAt s.out s.size bs).take (s.size + bs.length) = _
      rw [take_writeAt _ _ _ (by omega)]

theorem fit_vector_length (s : OutState) :
    (fit_vector s).out.length = (fit_vector s).size := by
  simp [fit_vector]

theorem fit_lazySerialize (s : OutState) (bs : List Nat) (h : s.size ≤ s.out.length) :
    fit_vector (lazySerialize s bs) = ⟨s.out.take s.size ++ bs, s.size + bs.length⟩ := by
  obtain ⟨hsz, hle, htake⟩ := lazySerialize_spec s bs h
  have h1 : vecResize (lazySerialize s bs).out (lazySerialize s bs).size
      = s.out.take s.size ++ bs := by
    unfold vecResize
    rw [if_pos hle, hsz, htake]
  unfold fit_vector
  rw [h1, hsz]

/-! ## The input archives

`memory_view_input_archive` borrows the byte list `input` and a cursor
`off`.  Its two `serialize` overloads check the remaining byte count before
copying, so a failing read leaves both the destination and the offset
untouched; `viewReadScalar`/`viewReadBinary` make the destination explicit
(the returned destination is the unchanged argument on failure), while
`loadBytes`/`loadScalar` are the same checks in exception-passing form (the
error carries the cursor at the throw). -/

def viewReadScalar (w : Nat) (input : List Nat) (off : Nat) (dest : Nat) :
    Option Err × Nat × Nat :=
  if input.length < w + off then (some .outOfRange, dest, off)
  else (none, bytesToScalar ((input.drop off).take w), off + w)

def viewReadBinary (count : Nat) (input : List Nat) (off : Nat) (dest : List Nat) :
    Option Err × List Nat × Nat :=
  if input.length < count + off then (some .outOfRange, dest, off)
  else (none, (input.drop off).take count, off + count)

def loadBytes (count : Nat) (input : List Nat) (off : Nat) :
    Except (Err × Nat) (List Nat × Nat) :=
  if input.length < count + off then .error (.outOfRange, off)
  else .ok ((input.drop off).take count, off + count)

def loadScalar (w : Nat) (input : List Nat) (off : Nat) :
    Except (Err × Nat) (Nat × Nat) :=
  match loadBytes w input off with
  | .error e => .error e
  | .ok (bs, o) => .ok (bytesToScalar bs, o)

/-- The observable state of a `memory_input_archive`: the owned source vector
and the wrapped view's cursor. -/
structure MemInState where
  buf : List Nat
  off : Nat
  deriving DecidableEq, Repr

/-- `memory_input_archive::operator()`: re-point the view at the current
buffer (which resets the cursor to zero), run the loads, then — on the normal
and on the exceptional path alike — erase the consumed bytes from the head of
the buffer and reset the cursor to zero. -/
def memInRun {α : Type} (action : List Nat → Nat → Except (Err × Nat) (α × Nat))
    (st : MemInState) : Except (Err × MemInState) (α × MemInState) :=
  match action st.buf 0 with
  | .ok (a, o) => .ok (a, ⟨st.buf.drop o, 0⟩)
  | .error (e, o) => .error (e, ⟨st.buf.drop o, 0⟩)

theorem loadBytes_ok (pre mid suf : List Nat) :
    loadBytes mid.length (pre ++ mid ++ suf) pre.length = .ok (mid, pre.length + mid.length) := by
  unfold loadBytes
  rw [if_neg (by simp; omega)]
  have h1 : (pre ++ mid ++ suf).drop pre.length = mid ++ suf := by
    rw [List.append_assoc, List.drop_left]
  rw [h1, List.take_left, Nat.add_comm]

/-- Claim C2: every `memory_output_archive` save call — returning normally or
by exception — leaves `buffer.length` equal to the archive's logical size;
and in the spec's scenario (buffer length 100, logical size 100, a handler
that writes 20 bytes and then raises) the buffer afterwards is exactly the
120 bytes consisting of the original 100 plus the 20 partially-written ones,
with logical size 120. -/
theorem c2_output_exception_safety :
    ∀ (action : OutState → Except (Err × OutState) OutState) (buf bs : List Nat) (e : Err),
      ((resultState (memOutRun action buf)).out.length
          = (resultState (memOutRun action buf)).size) ∧
      (buf.length = 100 → bs.length = 20 →
        memOutRun (fun s => .error (e, lazySerialize s bs)) buf
          = .error (e, ⟨buf ++ bs, 120⟩) ∧ (buf ++ bs).length = 120) := by
  intro action buf bs e
  constructor
  · unfold memOutRun resultState
    cases haction : action ⟨buf, buf.length⟩ with
    | ok s => simp [fit_vector]
    | error es =>
      obtain ⟨e', s⟩ := es
      simp [fit_vector]
  · intro h100 h20
    unfold memOutRun
    have hfit := fit_lazySerialize ⟨buf, buf.length⟩ bs (by simp)
    simp only [List.take_length] at hfit
    constructor
    · show Except.error (e, fit_vector (lazySerialize ⟨buf, buf.length⟩ bs)) = _
      rw [hfit, h100, h20]
    · simp [h100, h20]

/-- Closed-instance witness for `c2_output_exception_safety`. -/
theorem c2_output_exception_safety_witness :
    (List.replicate 100 0).length = 100 ∧ (List.replicate 20 1).length = 20 ∧
      (memOutRun (fun s => .error (.handlerFailure, lazySerialize s (List.replicate 20 1)))
          (List.replicate 100 0)
        = .error (.handlerFailure, ⟨List.replicate 100 0 ++ List.replicate 20 1, 120⟩) ∧
        (List.replicate 100 0 ++ List.replicate 20 1).length = 120) :=
  ⟨by decide, by decide,
    (c2_output_exception_safety (fun s => .ok s) (List.replicate 100 0)
      (List.replicate 20 1) .handlerFailure).2 (by decide) (by decide)⟩

/-- Claim C5: a view-archive read whose requested byte count exceeds the
bytes remaining between the cursor and the end of the borrowed slice raises
`out_of_range`, and the destination of that failing read as well as the
cursor are left unmodified (for both the scalar and the binary overload). -/
theorem c5_view_read_out_of_range :
    ∀ (w count off : Nat) (input : List Nat) (destN : Nat) (destB : List Nat),
      (input.length < w + off →
        viewReadScalar w input off destN = (some .outOfRange, destN, off)) ∧
      (input.length < count + off →
        viewReadBinary count input off destB = (some .outOfRange, destB, off)) := by
  intro w count off input destN destB
  constructor
  · intro h
    simp [viewReadScalar, if_pos h]
  · intro h
    simp [viewReadBinary, if_pos h]

/-- Closed-instance witness for `c5_view_read_out_of_range`. -/
theorem c5_view_read_out_of_range_witness :
    viewReadScalar 4 [1, 2] 0 7 = (some .outOfRange, 7, 0) ∧
      viewReadBinary 3 [1, 2] 0 [9] = (some .outOfRange, [9], 0) :=
  ⟨(c5_view_read_out_of_range 4 3 0 [1, 2] 7 [9]).1 (by decide),
    (c5_view_read_out_of_range 4 3 0 [1, 2] 7 [9]).2 (by decide)⟩

/-- Claim C7: a read reaching even one byte past the end of the available
bytes raises `out_of_range` without altering anything — on the view archive
the destination and the cursor stay unchanged, and on the consuming
`memory_input_archive` such a failing load call erases no bytes from the
source buffer. -/
theorem c7_read_past_end :
    ∀ (w off : Nat) (input : List Nat) (dest : Nat) (st : MemInState),
      (input.length < w + off →
        viewReadScalar w input off dest = (some .outOfRange, dest, off)) ∧
      (st.buf.length < w →
        memInRun (loadScalar w) st = .error (.outOfRange, ⟨st.buf, 0⟩)) := by
  intro w off input dest st
  constructor
  · intro h
    simp [viewReadScalar, if_pos h]
  · intro h
    unfold memInRun loadScalar loadBytes
    rw [if_pos (by omega)]
    simp

/-- Closed-instance witness for `c7_read_past_end`. -/
theorem c7_read_past_end_witness :
    viewReadScalar 3 [1, 2] 0 7 = (some .outOfRange, 7, 0) ∧
      memInRun (loadScalar 3) ⟨[1, 2], 0⟩ = .error (.outOfRange, ⟨[1, 2], 0⟩) :=
  ⟨(c7_read_past_end 3 0 [1, 2] 7 ⟨[1, 2], 0⟩).1 (by decide),
    (c7_read_past_end 3 0 [1, 2] 7 ⟨[1, 2], 0⟩).2 (by decide)⟩

/-! ## The universe of supported value shapes

`Ty` describes the compile-time shape that drives the serializer's overload
resolution: fundamental scalars of a given byte width, enums over an
underlying integral width, fixed arrays (`T[n]` / `std::array`), `std::pair`,
`std::tuple`, resizable sequences (`std::vector`, `std::string`), ordered
associative containers (`std::map`), and owning pointers to non-polymorphic
pointees (`std::unique_ptr` / `std::shared_ptr`, which the source serializes
identically).  `Val` is the untyped runtime value domain; `wf t v` says that
`v` is a value of shape `t` that is inside the serialization contract
(scalars fit their width, variable-length containers have fewer than `2^32`
elements, map keys strictly ascend, owned pointers are non-null). -/

inductive Ty where
  | scalar (w : Nat)
  | enumTy (w : Nat)
  | fixedArray (n : Nat) (t : Ty)
  | pairTy (a b : Ty)
  | tupleTy (ts : List Ty)
  | seqTy (t : Ty)
  | assocTy (k v : Ty)
  | ptrTy (t : Ty)

inductive Val where
  | vnum (n : Nat)
  | vlist (vs : List Val)
  | vpair (a b : Val)
  | vmap (entries : List (Val × Val))
  | vptr (o : Option Val)

/-- The fast-path test of the contiguous-container overloads: the element
type is fundamental or an enumeration. -/
def Ty.isScalarLike : Ty → Bool
  | .scalar _ => true
  | .enumTy _ => true
  | _ => false

/-- `sizeof` of a scalar-like element type. -/
def Ty.width : Ty → Nat
  | .scalar w => w
  | .enumTy w => w
  | _ => 0

def Val.toNum : Val → Nat
  | .vnum n => n
  | _ => 0

def Val.fstOf : Val → Val
  | .vpair a _ => a
  | _ => .vnum 0

def Val.sndOf : Val → Val
  | .vpair _ b => b
  | _ => .vnum 0

def Val.listOf : Val → List Val
  | .vlist l => l
  | _ => []

def Val.mapOf : Val → List (Val × Val)
  | .vmap l => l
  | _ => []

mutual
/-- A structural total comparison on values, standing for the strict weak
order the associative container is instantiated with. -/
def Val.cmp : Val → Val → Ordering
  | .vnum m, .vnum n => compare m n
  | .vnum _, _ => .lt
  | _, .vnum _ => .gt
  | .vlist l1, .vlist l2 => cmpValList l1 l2
  | .vlist _, _ => .lt
  | _, .vlist _ => .gt
  | .vpair a b, .vpair c d =>
    match Val.cmp a c with
    | .eq => Val.cmp b d
    | o => o
  | .vpair _ _, _ => .lt
  | _, .vpair _ _ => .gt
  | .vmap l1, .vmap l2 => cmpEntryList l1 l2
  | .vmap _, _ => .lt
  | _, .vmap _ => .gt
  | .vptr .none, .vptr .none => .eq
  | .vptr .none, .vptr (.some _) => .lt
  | .vptr (.some _), .vptr .none => .gt
  | .vptr (.some a), .vptr (.some b) => Val.cmp a b
def cmpValList : List Val → List Val → Ordering
  | [], [] => .eq
  | [], _ :: _ => .lt
  | _ :: _, [] => .gt
  | x :: xs, y :: ys =>
    match Val.cmp x y with
    | .eq => cmpValList xs ys
    | o => o
def cmpEntryList : List (Val × Val) → List (Val × Val) → Ordering
  | [], [] => .eq
  | [], _ :: _ => .lt
  | _ :: _, [] => .gt
  | (x1, x2) :: xs, (y1, y2) :: ys =>
    match Val.cmp x1 y1 with
    | .eq =>
      match Val.cmp x2 y2 with
      | .eq => cmpEntryList xs ys
      | o => o
    | o => o
end

/-- `std::map::insert`: place the new entry at its ordered position; if an
entry with an equivalent key exists, the insertion fails and the container is
unchanged. -/
def mapInsert (key val : Val) : List (Val × Val) → List (Val × Val)
  | [] => [(key, val)]
  | (k0, v0) :: rest =>
    match Val.cmp key k0 with
    | .lt => (key, val) :: (k0, v0) :: rest
    | .eq => (k0, v0) :: rest
    | .gt => (k0, v0) :: mapInsert key val rest

/-- Keys strictly ascend: every later key compares greater than every earlier
one (the ordered container's invariant). -/
def keysAscending : List (Val × Val) → Bool
  | [] => true
  | (k, _) :: rest => rest.all (fun e => Val.cmp e.1 k == .gt) && keysAscending rest

mutual
/-- Default-constructed value of a shape (zero scalars, empty containers,
`nullptr` pointers, componentwise defaults). -/
def defaultVal : Ty → Val
  | .scalar _ => .vnum 0
  | .enumTy _ => .vnum 0
  | .fixedArray n t => .vlist (List.replicate n (defaultVal t))
  | .pairTy a b => .vpair (defaultVal a) (defaultVal b)
  | .tupleTy ts => .vlist (defaultTuple ts)
  | .seqTy _ => .vlist []
  | .assocTy _ _ => .vmap []
  | .ptrTy _ => .vptr .none
def defaultTuple : List Ty → List Val
  | [] => []
  | t :: ts => defaultVal t :: defaultTuple ts
end

mutual
def wf : Ty → Val → Bool
  | .scalar w, .vnum n => decide (n < 2 ^ (8 * w))
  | .enumTy w, .vnum n => decide (n < 2 ^ (8 * w))
  | .fixedArray n t, .vlist vs => decide (vs.length = n) && wfElems t vs
  | .pairTy a b, .vpair x y => wf a x && wf b y
  | .tupleTy ts, .vlist vs => wfTuple ts vs
  | .seqTy t, .vlist vs => decide (vs.length < 4294967296) && wfElems t vs
  | .assocTy k v, .vmap l =>
    decide (l.length < 4294967296) && wfEntries k v l && keysAscending l
  | .ptrTy t, .vptr (.some x) => wf t x
  | _, _ => false
def wfElems : Ty → List Val → Bool
  | _, [] => true
  | t, v :: vs => wf t v && wfElems t vs
def wfTuple : List Ty → List Val → Bool
  | [], [] => true
  | t :: ts, v :: vs => wf t v && wfTuple ts vs
  | _, _ => false
def wfEntries : Ty → Ty → List (Val × Val) → Bool
  | _, _, [] => true
  | k, v, (a, b) :: rest => wf k a && wf v b && wfEntries k v rest
end

/-- Byte image of a contiguous run of scalar-like elements of width `w`
(the region `as_binary(container.data(), count)` copies). -/
def rawBytes (w : Nat) : List Val → List Nat
  | [] => []
  | v :: vs => scalarBytes w v.toNum ++ rawBytes w vs

/-- Inverse of `rawBytes`: cut `count` scalars of width `w` out of a byte
run (the binary fast-path load). -/
def decodeRaw (w : Nat) : Nat → List Nat → List Val
  | 0, _ => []
  | n + 1, bs => .vnum (bytesToScalar (bs.take w)) :: decodeRaw w n (bs.drop w)

mutual
/-- The byte image a successful save appends for a well-formed value: the
closed form of the handlers of `serializer.h` (scalar/enum: raw bytes;
fixed array / tuple / pair: concatenation, no prefix; resizable sequence and
associative container: truncated 32-bit count prefix then items, with the
contiguous-scalar binary fast path; owning pointer: the pointee's bytes).
Agreement with the stateful archive is proved in `saveVal_ok`. -/
def encBytes : Ty → Val → List Nat
  | .scalar w, .vnum n => scalarBytes w n
  | .enumTy w, .vnum n => scalarBytes w n
  | .fixedArray _ t, .vlist vs => encElems t vs
  | .pairTy a b, .vpair x y => encBytes a x ++ encBytes b y
  | .tupleTy ts, .vlist vs => encTuple ts vs
  | .seqTy t, .vlist vs =>
    if t.isScalarLike then
      scalarBytes 4 vs.length ++ rawBytes t.width (vs.take (vs.length % 4294967296))
    else
      scalarBytes 4 vs.length ++ encElems t vs
  | .assocTy k v, .vmap l => scalarBytes 4 l.length ++ encEntries k v l
  | .ptrTy t, .vptr (.some x) => encBytes t x
  | _, _ => []
def encElems : Ty → List Val → List Nat
  | _, [] => []
  | t, v :: vs => encBytes t v ++ encElems t vs
def encTuple : List Ty → List Val → List Nat
  | t :: ts, v :: vs => encBytes t v ++ encTuple ts vs
  | _, _ => []
def encEntries : Ty → Ty → List (Val × Val) → List Nat
  | _, _, [] => []
  | k, v, (a, b) :: rest => encBytes k a ++ encBytes v b ++ encEntries k v rest
end

/-! ## Saving through the lazy output archive

`saveVal t v s` runs the dispatch of `archive<...>::operator()` and the
handlers of `serializer.h` for one value of shape `t` against the lazy
output archive state `s`: scalars and enums go through the archive's scalar
`serialize`; fixed arrays, pairs and tuples serialize their items in order
with no prefix; resizable sequences and associative containers first save
`static_cast<size_type>(container.size())` and then the items, with the
contiguous-scalar fast path writing one binary run of the truncated count of
elements; a null owning pointer raises `attempt_to_serialize_null` and a
non-null one recurses into its pointee.  An exception carries the archive
state at the throw. -/
mutual
def saveVal : Ty → Val → OutState → Except (Err × OutState) OutState
  | .scalar w, .vnum n, s => .ok (lazySerialize s (scalarBytes w n))
  | .enumTy w, .vnum n, s => .ok (lazySerialize s (scalarBytes w n))
  | .fixedArray _ t, .vlist vs, s => saveElems t vs s
  | .pairTy a b, .vpair x y, s =>
    match saveVal a x s with
    | .ok s1 => saveVal b y s1
    | .error e => .error e
  | .tupleTy ts, .vlist vs, s => saveTuple ts vs s
  | .seqTy t, .vlist vs, s =>
    if t.isScalarLike then
      if vs.length % 4294967296 = 0 then
        .ok (lazySerialize s (scalarBytes 4 vs.length))
      else
        .ok (lazySerialize (lazySerialize s (scalarBytes 4 vs.length))
          (rawBytes t.width (vs.take (vs.length % 4294967296))))
    else
      saveElems t vs (lazySerialize s (scalarBytes 4 vs.length))
  | .assocTy k v, .vmap l, s =>
    saveEntries k v l (lazySerialize s (scalarBytes 4 l.length))
  | .ptrTy _, .vptr .none, s => .error (.attemptToSerializeNull, s)
  | .ptrTy t, .vptr (.some x), s => saveVal t x s
  | _, _, s => .ok s
def saveElems : Ty → List Val → OutState → Except (Err × OutState) OutState
  | _, [], s => .ok s
  | t, v :: vs, s =>
    match saveVal t v s with
    | .ok s1 => saveElems t vs s1
    | .error e => .error e
def saveTuple : List Ty → List Val → OutState → Except (Err × OutState) OutState
  | t :: ts, v :: vs, s =>
    match saveVal t v s with
    | .ok s1 => saveTuple ts vs s1
    | .error e => .error e
  | _, _, s => .ok s
def saveEntries : Ty → Ty → List (Val × Val) → OutState → Except (Err × OutState) OutState
  | _, _, [], s => .ok s
  | k, v, (a, b) :: rest, s =>
    match saveVal k a s with
    | .ok s1 =>
      match saveVal v b s1 with
      | .ok s2 => saveEntries k v rest s2
      | .error e => .error e
    | .error e => .error e
end

/-- A `memory_output_archive` call saving one value of shape `t`. -/
def memOutSaveVal (t : Ty) (v : Val) (buf : List Nat) :
    Except (Err × OutState) OutState :=
  memOutRun (saveVal t v) buf

/-- `std::vector::resize` / `container.resize(n)`: keep the first `n`
elements, value-initialize any new ones. -/
def listResize {α : Type} (l : List α) (n : Nat) (d : α) : List α :=
  l.take n ++ List.replicate (n - l.length) d

mutual
/-- Termination measure for the loading recursion. -/
def Ty.sz : Ty → Nat
  | .scalar _ => 1
  | .enumTy _ => 1
  | .fixedArray _ t => t.sz + 2
  | .pairTy a b => a.sz + b.sz + 1
  | .tupleTy ts => szList ts + 1
  | .seqTy t => t.sz + 2
  | .assocTy k v => k.sz + v.sz + 2
  | .ptrTy t => t.sz + 1
def szList : List Ty → Nat
  | [] => 0
  | t :: ts => t.sz + szList ts + 1
end

/-! ## Loading through the view input archive

`loadVal t dest input off` runs the loading direction of the same handlers
against a `memory_view_input_archive` over `input` with cursor `off`.
`dest` is the destination object the C++ loads into: fixed arrays, pairs and
tuples load componentwise into the existing components, resizable sequences
`resize` the destination and then fill it (the contiguous-scalar fast path
reads one binary run), associative containers read a count and `insert` that
many freshly default-constructed entries into the existing container, and
owning pointers default-construct a new pointee, load it, and `reset` the
pointer.  An exception carries the cursor at the throw. -/
mutual
def loadVal : Ty → Val → List Nat → Nat → Except (Err × Nat) (Val × Nat)
  | .scalar w, _, input, off =>
    match loadBytes w input off with
    | .error e => .error e
    | .ok (bs, o) => .ok (.vnum (bytesToScalar bs), o)
  | .enumTy w, _, input, off =>
    match loadBytes w input off with
    | .error e => .error e
    | .ok (bs, o) => .ok (.vnum (bytesToScalar bs), o)
  | .fixedArray _ t, dest, input, off =>
    match loadElems t dest.listOf input off with
    | .error e => .error e
    | .ok (ws, o) => .ok (.vlist ws, o)
  | .pairTy a b, dest, input, off =>
    match loadVal a dest.fstOf input off with
    | .error e => .error e
    | .ok (x, o1) =>
      match loadVal b dest.sndOf input o1 with
      | .error e => .error e
      | .ok (y, o2) => .ok (.vpair x y, o2)
  | .tupleTy ts, dest, input, off =>
    match loadTuple ts dest.listOf input off with
    | .error e => .error e
    | .ok (ws, o) => .ok (.vlist ws, o)
  | .seqTy t, dest, input, off =>
    match loadBytes 4 input off with
    | .error e => .error e
    | .ok (szb, o1) =>
      if t.isScalarLike then
        if bytesToScalar szb = 0 then .ok (.vlist [], o1)
        else
          match loadBytes (bytesToScalar szb * t.width) input o1 with
          | .error e => .error e
          | .ok (raw, o2) =>
            .ok (.vlist (decodeRaw t.width (bytesToScalar szb) raw), o2)
      else
        match loadElems t (listResize dest.listOf (bytesToScalar szb) (defaultVal t))
            input o1 with
        | .error e => .error e
        | .ok (ws, o2) => .ok (.vlist ws, o2)
  | .assocTy k v, dest, input, off =>
    match loadBytes 4 input off with
    | .error e => .error e
    | .ok (szb, o1) =>
      match loadEntries k v (bytesToScalar szb) dest.mapOf input o1 with
      | .error e => .error e
      | .ok (m, o2) => .ok (.vmap m, o2)
  | .ptrTy t, _, input, off =>
    match loadVal t (defaultVal t) input off with
    | .error e => .error e
    | .ok (x, o1) => .ok (.vptr (.some x), o1)
  termination_by t dest input off => (t.sz, 0)
  decreasing_by all_goals first
    | (apply Prod.Lex.left; (try simp only [Ty.sz, szList, List.length_cons]); omega)
    | (apply Prod.Lex.right; (try simp only [Ty.sz, szList, List.length_cons]); omega)
def loadElems : Ty → List Val → List Nat → Nat → Except (Err × Nat) (List Val × Nat)
  | _, [], _, off => .ok ([], off)
  | t, d :: ds, input, off =>
    match loadVal t d input off with
    | .error e => .error e
    | .ok (x, o1) =>
      match loadElems t ds input o1 with
      | .error e => .error e
      | .ok (xs, o2) => .ok (x :: xs, o2)
  termination_by t ds input off => (t.sz + 1, ds.length)
  decreasing_by all_goals first
    | (apply Prod.Lex.left; (try simp only [Ty.sz, szList, List.length_cons]); omega)
    | (apply Prod.Lex.right; (try simp only [Ty.sz, szList, List.length_cons]); omega)
def loadTuple : List Ty → List Val → List Nat → Nat → Except (Err × Nat) (List Val × Nat)
  | [], _, _, off => .ok ([], off)
  | t :: ts, ds, input, off =>
    match loadVal t (ds.headD (defaultVal t)) input off with
    | .error e => .error e
    | .ok (x, o1) =>
      match loadTuple ts ds.tail input o1 with
      | .error e => .error e
      | .ok (xs, o2) => .ok (x :: xs, o2)
  termination_by ts ds input off => (szList ts, 0)
  decreasing_by all_goals first
    | (apply Prod.Lex.left; (try simp only [Ty.sz, szList, List.length_cons]); omega)
    | (apply Prod.Lex.right; (try simp only [Ty.sz, szList, List.length_cons]); omega)
def loadEntries : Ty → Ty → Nat → List (Val × Val) → List Nat → Nat →
    Except (Err × Nat) (List (Val × Val) × Nat)
  | _, _, 0, acc, _, off => .ok (acc, off)
  | k, v, n + 1, acc, input, off =>
    match loadVal k (defaultVal k) input off with
    | .error e => .error e
    | .ok (a, o1) =>
      match loadVal v (defaultVal v) input o1 with
      | .error e => .error e
      | .ok (b, o2) => loadEntries k v n (mapInsert a b acc) input o2
  termination_by k v n acc input off => (k.sz + v.sz + 1, n)
  decreasing_by all_goals first
    | (apply Prod.Lex.left; (try simp only [Ty.sz, szList, List.length_cons]); omega)
    | (apply Prod.Lex.right; (try simp only [Ty.sz, szList, List.length_cons]); omega)
end

/-! ## Correctness of saving

`SaveOk t` says: saving any well-formed value of shape `t` through the lazy
archive succeeds and appends exactly `encBytes t v` after the bytes already
written, keeping the logical size within the vector length. -/

/-! Unfolding equations for the arms of `wf`, `encBytes` and `saveVal`
(their match trees have a catch-all arm, so the automatically generated
equations carry side conditions; the per-arm forms below hold by `rfl`). -/

@[simp] theorem wf_scalar (w n : Nat) :
    wf (.scalar w) (.vnum n) = decide (n < 2 ^ (8 * w)) := rfl
@[simp] theorem wf_enum (w n : Nat) :
    wf (.enumTy w) (.vnum n) = decide (n < 2 ^ (8 * w)) := rfl
@[simp] theorem wf_fixedArray (m : Nat) (t : Ty) (vs : List Val) :
    wf (.fixedArray m t) (.vlist vs) = (decide (vs.length = m) && wfElems t vs) := rfl
@[simp] theorem wf_pair (a b : Ty) (x y : Val) :
    wf (.pairTy a b) (.vpair x y) = (wf a x && wf b y) := rfl
@[simp] theorem wf_tuple (ts : List Ty) (vs : List Val) :
    wf (.tupleTy ts) (.vlist vs) = wfTuple ts vs := rfl
@[simp] theorem wf_seq (t : Ty) (vs : List Val) :
    wf (.seqTy t) (.vlist vs) = (decide (vs.length < 4294967296) && wfElems t vs) := rfl
@[simp] theorem wf_assoc (k v : Ty) (l : List (Val × Val)) :
    wf (.assocTy k v) (.vmap l)
      = (decide (l.length < 4294967296) && wfEntries k v l && keysAscending l) := rfl
@[simp] theorem wf_ptr_some (t : Ty) (x : Val) :
    wf (.ptrTy t) (.vptr (.some x)) = wf t x := rfl
@[simp] theorem wf_ptr_none (t : Ty) :
    wf (.ptrTy t) (.vptr .none) = false := rfl

@[simp] theorem encBytes_scalar (w n : Nat) :
    encBytes (.scalar w) (.vnum n) = scalarBytes w n := rfl
@[simp] theorem encBytes_enum (w n : Nat) :
    encBytes (.enumTy w) (.vnum n) = scalarBytes w n := rfl
@[simp] theorem encBytes_fixedArray (m : Nat) (t : Ty) (vs : List Val) :
    encBytes (.fixedArray m t) (.vlist vs) = encElems t vs := rfl
@[simp] theorem encBytes_pair (a b : Ty) (x y : Val) :
    encBytes (.pairTy a b) (.vpair x y) = encBytes a x ++ encBytes b y := rfl
@[simp] theorem encBytes_tuple (ts : List Ty) (vs : List Val) :
    encBytes (.tupleTy ts) (.vlist vs) = encTuple ts vs := rfl
@[simp] theorem encBytes_seq (t : Ty) (vs : List Val) :
    encBytes (.seqTy t) (.vlist vs)
      = if t.isScalarLike then
          scalarBytes 4 vs.length ++ rawBytes t.width (vs.take (vs.length % 4294967296))
        else
          scalarBytes 4 vs.length ++ encElems t vs := rfl
@[simp] theorem encBytes_assoc (k v : Ty) (l : List (Val × Val)) :
    encBytes (.assocTy k v) (.vmap l) = scalarBytes 4 l.length ++ encEntries k v l := rfl
@[simp] theorem encBytes_ptr_some (t : Ty) (x : Val) :
    encBytes (.ptrTy t) (.vptr (.some x)) = encBytes t x := rfl

theorem saveVal_scalar (w n : Nat) (s : OutState) :
    saveVal (.scalar w) (.vnum n) s = .ok (lazySerialize s (scalarBytes w n)) := rfl
theorem saveVal_enum (w n : Nat) (s : OutState) :
    saveVal (.enumTy w) (.vnum n) s = .ok (lazySerialize s (scalarBytes w n)) := rfl
theorem saveVal_fixedArray (m : Nat) (t : Ty) (vs : List Val) (s : OutState) :
    saveVal (.fixedArray m t) (.vlist vs) s = saveElems t vs s := rfl
theorem saveVal_pair (a b : Ty) (x y : Val) (s : OutState) :
    saveVal (.pairTy a b) (.vpair x y) s
      = match saveVal a x s with
        | .ok s1 => saveVal b y s1
        | .error e => .error e := rfl
theorem saveVal_tuple (ts : List Ty) (vs : List Val) (s : OutState) :
    saveVal (.tupleTy ts) (.vlist vs) s = saveTuple ts vs s := rfl
theorem saveVal_seq (t : Ty) (vs : List Val) (s : OutState) :
    saveVal (.seqTy t) (.vlist vs) s
      = if t.isScalarLike then
          if vs.length % 4294967296 = 0 then
            .ok (lazySerialize s (scalarBytes 4 vs.length))
          else
            .ok (lazySerialize (lazySerialize s (scalarBytes 4 vs.length))
              (rawBytes t.width (vs.take (vs.length % 4294967296))))
        else
          saveElems t vs (lazySerialize s (scalarBytes 4 vs.length)) := rfl
theorem saveVal_assoc (k v : Ty) (l : List (Val × Val)) (s : OutState) :
    saveVal (.assocTy k v) (.vmap l) s
      = saveEntries k v l (lazySerialize s (scalarBytes 4 l.length)) := rfl
theorem saveVal_ptr_none (t : Ty) (s : OutState) :
    saveVal (.ptrTy t) (.vptr .none) s = .error (.attemptToSerializeNull, s) := rfl
theorem saveVal_ptr_some (t : Ty) (x : Val) (s : OutState) :
    saveVal (.ptrTy t) (.vptr (.some x)) s = saveVal t x s := rfl

def SaveOk (t : Ty) : Prop :=
  ∀ v s, wf t v = true → s.size ≤ s.out.length →
    ∃ s', saveVal t v s = .ok s' ∧
      s'.size = s.size + (encBytes t v).length ∧
      s'.size ≤ s'.out.length ∧
      s'.out.take s'.size = s.out.take s.size ++ encBytes t v

theorem sz_lt_szList_of_mem {ts : List Ty} {t : Ty} (h : t ∈ ts) :
    t.sz < szList ts + 1 := by
  induction ts with
  | nil => cases h
  | cons t0 ts ih =>
    rcases List.mem_cons.mp h with h0 | h0
    · subst h0
      simp [szList]
      omega
    · have := ih h0
      simp [szList]
      omega

theorem saveElems_ok {t : Ty} (P : SaveOk t) :
    ∀ vs s, wfElems t vs = true → s.size ≤ s.out.length →
      ∃ s', saveElems t vs s = .ok s' ∧
        s'.size = s.size + (encElems t vs).length ∧
        s'.size ≤ s'.out.length ∧
        s'.out.take s'.size = s.out.take s.size ++ encElems t vs := by
  intro vs
  induction vs with
  | nil =>
    intro s _ hinv
    exact ⟨s, rfl, by simp [encElems], hinv, by simp [encElems]⟩
  | cons v vs ih =>
    intro s hwf hinv
    rw [wfElems, Bool.and_eq_true] at hwf
    obtain ⟨s1, e1, sz1, le1, tk1⟩ := P v s hwf.1 hinv
    obtain ⟨s2, e2, sz2, le2, tk2⟩ := ih s1 hwf.2 le1
    refine ⟨s2, ?_, ?_, le2, ?_⟩
    · simp only [saveElems, e1, e2]
    · simp only [encElems, List.length_append]
      omega
    · rw [tk2, tk1, encElems, List.append_assoc]

theorem saveTuple_ok {ts : List Ty} (P : ∀ t ∈ ts, SaveOk t) :
    ∀ vs s, wfTuple ts vs = true → s.size ≤ s.out.length →
      ∃ s', saveTuple ts vs s = .ok s' ∧
        s'.size = s.size + (encTuple ts vs).length ∧
        s'.size ≤ s'.out.length ∧
        s'.out.take s'.size = s.out.take s.size ++ encTuple ts vs := by
  induction ts with
  | nil =>
    intro vs s hwf hinv
    cases vs with
    | nil => exact ⟨s, rfl, by simp [encTuple], hinv, by simp [encTuple]⟩
    | cons v vs => simp [wfTuple] at hwf
  | cons t ts ih =>
    intro vs s hwf hinv
    cases vs with
    | nil => simp [wfTuple] at hwf
    | cons v vs =>
      rw [wfTuple, Bool.and_eq_true] at hwf
      obtain ⟨s1, e1, sz1, le1, tk1⟩ := P t (by simp) v s hwf.1 hinv
      obtain ⟨s2, e2, sz2, le2, tk2⟩ :=
        ih (fun t' ht' => P t' (by simp [ht'])) vs s1 hwf.2 le1
      refine ⟨s2, ?_, ?_, le2, ?_⟩
      · simp only [saveTuple, e1, e2]
      · simp only [encTuple, List.length_append]
        omega
      · rw [tk2, tk1, encTuple, List.append_assoc]

theorem saveEntries_ok {k v : Ty} (Pk : SaveOk k) (Pv : SaveOk v) :
    ∀ l s, wfEntries k v l = true → s.size ≤ s.out.length →
      ∃ s', saveEntries k v l s = .ok s' ∧
        s'.size = s.size + (encEntries k v l).length ∧
        s'.size ≤ s'.out.length ∧
        s'.out.take s'.size = s.out.take s.size ++ encEntries k v l := by
  intro l
  induction l with
  | nil =>
    intro s _ hinv
    exact ⟨s, rfl, by simp [encEntries], hinv, by simp [encEntries]⟩
  | cons e l ih =>
    obtain ⟨a, b⟩ := e
    intro s hwf hinv
    rw [wfEntries, Bool.and_eq_true, Bool.and_eq_true] at hwf
    obtain ⟨s1, e1, sz1, le1, tk1⟩ := Pk a s hwf.1.1 hinv
    obtain ⟨s2, e2, sz2, le2, tk2⟩ := Pv b s1 hwf.1.2 le1
    obtain ⟨s3, e3, sz3, le3, tk3⟩ := ih s2 hwf.2 le2
    refine ⟨s3, ?_, ?_, le3, ?_⟩
    · simp only [saveEntries, e1, e2, e3]
    · simp only [encEntries, List.length_append]
      omega
    · rw [tk3, tk2, tk1, encEntries]
      simp [List.append_assoc]

theorem saveVal_ok : ∀ t, SaveOk t := by
  have H : ∀ n (t : Ty), t.sz ≤ n → SaveOk t := by
    intro n
    induction n with
    | zero =>
      intro t ht
      cases t <;> (simp only [Ty.sz] at ht; omega)
    | succ n ihn =>
      intro t ht
      cases t with
      | scalar w =>
        intro v s hwf hinv
        cases v <;> try exact Bool.noConfusion hwf
        case vnum m =>
          obtain ⟨hsz, hle, htake⟩ := lazySerialize_spec s (scalarBytes w m) hinv
          refine ⟨_, saveVal_scalar w m s, ?_, hle, ?_⟩
          · simpa using hsz
          · rw [encBytes_scalar, hsz]
            exact htake
      | enumTy w =>
        intro v s hwf hinv
        cases v <;> try exact Bool.noConfusion hwf
        case vnum m =>
          obtain ⟨hsz, hle, htake⟩ := lazySerialize_spec s (scalarBytes w m) hinv
          refine ⟨_, saveVal_enum w m s, ?_, hle, ?_⟩
          · simpa using hsz
          · rw [encBytes_enum, hsz]
            exact htake
      | fixedArray m t =>
        intro v s hwf hinv
        cases v <;> try exact Bool.noConfusion hwf
        case vlist vs =>
          rw [wf_fixedArray, Bool.and_eq_true] at hwf
          have Pt : SaveOk t := ihn t (by simp only [Ty.sz] at ht; omega)
          obtain ⟨s', e, h1, h2, h3⟩ := saveElems_ok Pt vs s hwf.2 hinv
          exact ⟨s', by rw [saveVal_fixedArray]; exact e,
            by simpa using h1, h2, by simpa using h3⟩
      | pairTy a b =>
        intro v s hwf hinv
        cases v <;> try exact Bool.noConfusion hwf
        case vpair x y =>
          rw [wf_pair, Bool.and_eq_true] at hwf
          have Pa : SaveOk a := ihn a (by simp only [Ty.sz] at ht; omega)
          have Pb : SaveOk b := ihn b (by simp only [Ty.sz] at ht; omega)
          obtain ⟨s1, e1, sz1, le1, tk1⟩ := Pa x s hwf.1 hinv
          obtain ⟨s2, e2, sz2, le2, tk2⟩ := Pb y s1 hwf.2 le1
          refine ⟨s2, ?_, ?_, le2, ?_⟩
          · rw [saveVal_pair, e1]
            exact e2
          · simp only [encBytes_pair, List.length_append]
            omega
          · rw [tk2, tk1, encBytes_pair, List.append_assoc]
      | tupleTy ts =>
        intro v s hwf hinv
        cases v <;> try exact Bool.noConfusion hwf
        case vlist vs =>
          rw [wf_tuple] at hwf
          have P : ∀ t' ∈ ts, SaveOk t' := fun t' ht' =>
            ihn t' (by
              have := sz_lt_szList_of_mem ht'
              simp only [Ty.sz] at ht
              omega)
          obtain ⟨s', e, h1, h2, h3⟩ := saveTuple_ok P vs s hwf hinv
          exact ⟨s', by rw [saveVal_tuple]; exact e,
            by simpa using h1, h2, by simpa using h3⟩
      | seqTy t =>
        intro v s hwf hinv
        cases v <;> try exact Bool.noConfusion hwf
        case vlist vs =>
          rw [wf_seq, Bool.and_eq_true, decide_eq_true_eq] at hwf
          have hmod : vs.length % 4294967296 = vs.length := Nat.mod_eq_of_lt hwf.1
          by_cases hsc : t.isScalarLike
          · by_cases hzero : vs.length % 4294967296 = 0
            · have hnil : vs = [] := by
                rw [hmod] at hzero
                exact List.length_eq_zero.mp hzero
              subst hnil
              obtain ⟨hsz, hle, htake⟩ := lazySerialize_spec s (scalarBytes 4 0) hinv
              refine ⟨_, ?_, ?_, hle, ?_⟩
              · rw [saveVal_seq, if_pos hsc, if_pos hzero]
                rfl
              · rw [encBytes_seq, if_pos hsc]
                simp only [List.length_nil, List.take_nil, rawBytes, List.append_nil]
                simpa using hsz
              · rw [encBytes_seq, if_pos hsc]
                simp only [List.length_nil, List.take_nil, rawBytes, List.append_nil, hsz]
                exact htake
            · obtain ⟨hsz1, hle1, htk1⟩ :=
                lazySerialize_spec s (scalarBytes 4 vs.length) hinv
              obtain ⟨hsz2, hle2, htk2⟩ :=
                lazySerialize_spec (lazySerialize s (scalarBytes 4 vs.length))
                  (rawBytes t.width (vs.take (vs.length % 4294967296))) hle1
              refine ⟨_, ?_, ?_, hle2, ?_⟩
              · rw [saveVal_seq, if_pos hsc, if_neg hzero]
              · rw [encBytes_seq, if_pos hsc]
                simp only [List.length_append]
                rw [hsz2, hsz1]
                omega
              · rw [encBytes_seq, if_pos hsc, hsz2, htk2, hsz1, htk1, List.append_assoc]
          · have Pt : SaveOk t := ihn t (by simp only [Ty.sz] at ht; omega)
            obtain ⟨hsz1, hle1, htk1⟩ :=
              lazySerialize_spec s (scalarBytes 4 vs.length) hinv
            obtain ⟨s2, e2, sz2, le2, tk2⟩ :=
              saveElems_ok Pt vs (lazySerialize s (scalarBytes 4 vs.length)) hwf.2 hle1
            refine ⟨s2, ?_, ?_, le2, ?_⟩
            · rw [saveVal_seq, if_neg (by simp [hsc])]
              exact e2
            · rw [encBytes_seq, if_neg (by simp [hsc])]
              simp only [List.length_append]
              rw [sz2, hsz1]
              omega
            · rw [encBytes_seq, if_neg (by simp [hsc]), tk2, hsz1, htk1, List.append_assoc]
      | assocTy k v =>
        intro vv s hwf hinv
        cases vv <;> try exact Bool.noConfusion hwf
        case vmap l =>
          rw [wf_assoc, Bool.and_eq_true, Bool.and_eq_true] at hwf
          have Pk : SaveOk k := ihn k (by simp only [Ty.sz] at ht; omega)
          have Pv : SaveOk v := ihn v (by simp only [Ty.sz] at ht; omega)
          obtain ⟨hsz1, hle1, htk1⟩ := lazySerialize_spec s (scalarBytes 4 l.length) hinv
          obtain ⟨s2, e2, sz2, le2, tk2⟩ :=
            saveEntries_ok Pk Pv l (lazySerialize s (scalarBytes 4 l.length)) hwf.1.2 hle1
          refine ⟨s2, ?_, ?_, le2, ?_⟩
          · rw [saveVal_assoc]
            exact e2
          · rw [encBytes_assoc]
            simp only [List.length_append]
            rw [sz2, hsz1]
            omega
          · rw [encBytes_assoc, tk2, hsz1, htk1, List.append_assoc]
      | ptrTy t =>
        intro v s hwf hinv
        cases v <;> try exact Bool.noConfusion hwf
        case vptr o =>
          cases o with
          | none => exact Bool.noConfusion hwf
          | some x =>
            rw [wf_ptr_some] at hwf
            have Pt : SaveOk t := ihn t (by simp only [Ty.sz] at ht; omega)
            obtain ⟨s', e, h1, h2, h3⟩ := Pt x s hwf hinv
            exact ⟨s', by rw [saveVal_ptr_some]; exact e,
              by simpa using h1, h2, by simpa using h3⟩
  intro t
  exact H t.sz t le_rfl

/-! ## Correctness of loading

`LoadOk t` says: loading into a default-constructed destination from any
byte stream whose bytes at the cursor are `encBytes t v` for a well-formed
`v` succeeds, reconstructs exactly `v`, and leaves the cursor right after
those bytes. -/

@[simp] theorem listOf_vlist (l : List Val) : Val.listOf (.vlist l) = l := rfl
@[simp] theorem mapOf_vmap (l : List (Val × Val)) : Val.mapOf (.vmap l) = l := rfl
@[simp] theorem fstOf_vpair (a b : Val) : Val.fstOf (.vpair a b) = a := rfl
@[simp] theorem sndOf_vpair (a b : Val) : Val.sndOf (.vpair a b) = b := rfl

theorem rawBytes_length (w : Nat) (vs : List Val) :
    (rawBytes w vs).length = vs.length * w := by
  induction vs with
  | nil => simp [rawBytes]
  | cons v vs ih =>
    simp [rawBytes, ih]
    ring

theorem scalarLike_wf_inv {t : Ty} {v : Val} (hsc : t.isScalarLike = true)
    (hwf : wf t v = true) : ∃ n, v = .vnum n ∧ n < 2 ^ (8 * t.width) := by
  cases t <;> try exact Bool.noConfusion hsc
  case scalar w =>
    cases v <;> try exact Bool.noConfusion hwf
    case vnum n =>
      rw [wf_scalar, decide_eq_true_eq] at hwf
      exact ⟨n, rfl, hwf⟩
  case enumTy w =>
    cases v <;> try exact Bool.noConfusion hwf
    case vnum n =>
      rw [wf_enum, decide_eq_true_eq] at hwf
      exact ⟨n, rfl, hwf⟩

theorem decodeRaw_rawBytes (w : Nat) :
    ∀ vs : List Val, (∀ v ∈ vs, ∃ n, v = .vnum n ∧ n < 2 ^ (8 * w)) →
      decodeRaw w vs.length (rawBytes w vs) = vs := by
  intro vs
  induction vs with
  | nil => intro _; rfl
  | cons v vs ih =>
    intro h
    obtain ⟨n, hv, hn⟩ := h v (by simp)
    subst hv
    have htk : (scalarBytes w n ++ rawBytes w vs).take w = scalarBytes w n :=
      List.take_left' (scalarBytes_length w n)
    have hdp : (scalarBytes w n ++ rawBytes w vs).drop w = rawBytes w vs :=
      List.drop_left' (scalarBytes_length w n)
    simp only [List.length_cons, rawBytes, Val.toNum, decodeRaw, htk, hdp]
    rw [bytesToScalar_scalarBytes, Nat.mod_eq_of_lt hn,
      ih (fun x hx => h x (by simp [hx]))]

def LoadOk (t : Ty) : Prop :=
  ∀ v pre suf, wf t v = true →
    loadVal t (defaultVal t) (pre ++ encBytes t v ++ suf) pre.length
      = .ok (v, pre.length + (encBytes t v).length)

theorem mapInsert_append (key val : Val) :
    ∀ acc, (∀ x ∈ acc, Val.cmp key x.1 = .gt) →
      mapInsert key val acc = acc ++ [(key, val)] := by
  intro acc
  induction acc with
  | nil => intro _; rfl
  | cons e rest ih =>
    obtain ⟨k0, v0⟩ := e
    intro h
    have hk0 : Val.cmp key k0 = .gt := h (k0, v0) (by simp)
    simp only [mapInsert, hk0, List.cons_append]
    rw [ih (fun x hx => h x (by simp [hx]))]

theorem loadElems_ok {t : Ty} (P : LoadOk t) :
    ∀ vs pre suf, wfElems t vs = true →
      loadElems t (List.replicate vs.length (defaultVal t))
          (pre ++ encElems t vs ++ suf) pre.length
        = .ok (vs, pre.length + (encElems t vs).length) := by
  intro vs
  induction vs with
  | nil =>
    intro pre suf _
    simp [loadElems, encElems]
  | cons v vs ih =>
    intro pre suf hwf
    rw [wfElems, Bool.and_eq_true] at hwf
    have h1 : loadVal t (defaultVal t) (pre ++ encElems t (v :: vs) ++ suf) pre.length
        = .ok (v, pre.length + (encBytes t v).length) := by
      have := P v pre (encElems t vs ++ suf) hwf.1
      rw [encElems]
      simpa [List.append_assoc] using this
    have h2 : loadElems t (List.replicate vs.length (defaultVal t))
        (pre ++ encElems t (v :: vs) ++ suf) (pre.length + (encBytes t v).length)
        = .ok (vs, pre.length + (encBytes t v).length + (encElems t vs).length) := by
      have := ih (pre ++ encBytes t v) suf hwf.2
      rw [encElems]
      simpa [List.append_assoc] using this
    rw [List.length_cons, List.replicate_succ]
    simp only [loadElems, h1, h2]
    rw [encElems]
    simp only [List.length_append]
    rw [Nat.add_assoc]

theorem loadTuple_ok {ts : List Ty} (P : ∀ t ∈ ts, LoadOk t) :
    ∀ vs pre suf, wfTuple ts vs = true →
      loadTuple ts (defaultTuple ts) (pre ++ encTuple ts vs ++ suf) pre.length
        = .ok (vs, pre.length + (encTuple ts vs).length) := by
  induction ts with
  | nil =>
    intro vs pre suf hwf
    cases vs with
    | nil => simp [loadTuple, encTuple]
    | cons v vs => simp [wfTuple] at hwf
  | cons t ts ih =>
    intro vs pre suf hwf
    cases vs with
    | nil => simp [wfTuple] at hwf
    | cons v vs =>
      rw [wfTuple, Bool.and_eq_true] at hwf
      have h1 : loadVal t (defaultVal t) (pre ++ encTuple (t :: ts) (v :: vs) ++ suf)
          pre.length = .ok (v, pre.length + (encBytes t v).length) := by
        have := P t (by simp) v pre (encTuple ts vs ++ suf) hwf.1
        rw [encTuple]
        simpa [List.append_assoc] using this
      have h2 : loadTuple ts (defaultTuple ts)
          (pre ++ encTuple (t :: ts) (v :: vs) ++ suf) (pre.length + (encBytes t v).length)
          = .ok (vs, pre.length + (encBytes t v).length + (encTuple ts vs).length) := by
        have := ih (fun t' ht' => P t' (by simp [ht'])) vs (pre ++ encBytes t v) suf hwf.2
        rw [encTuple]
        simpa [List.append_assoc] using this
      rw [defaultTuple]
      simp only [loadTuple, List.headD_cons, List.tail_cons, h1, h2]
      rw [encTuple]
      simp only [List.length_append]
      rw [Nat.add_assoc]

theorem loadEntries_ok {k v : Ty} (Pk : LoadOk k) (Pv : LoadOk v) :
    ∀ l acc pre suf, wfEntries k v l = true → keysAscending l = true →
      (∀ e ∈ l, ∀ x ∈ acc, Val.cmp e.1 x.1 = .gt) →
      loadEntries k v l.length acc (pre ++ encEntries k v l ++ suf) pre.length
        = .ok (acc ++ l, pre.length + (encEntries k v l).length) := by
  intro l
  induction l with
  | nil =>
    intro acc pre suf _ _ _
    simp [loadEntries, encEntries]
  | cons e l ih =>
    obtain ⟨a, b⟩ := e
    intro acc pre suf hwf hasc hgt
    rw [wfEntries, Bool.and_eq_true, Bool.and_eq_true] at hwf
    rw [keysAscending, Bool.and_eq_true] at hasc
    have h1 : loadVal k (defaultVal k) (pre ++ encEntries k v ((a, b) :: l) ++ suf)
        pre.length = .ok (a, pre.length + (encBytes k a).length) := by
      have := Pk a pre (encBytes v b ++ encEntries k v l ++ suf) hwf.1.1
      rw [encEntries]
      simpa [List.append_assoc] using this
    have h2 : loadVal v (defaultVal v) (pre ++ encEntries k v ((a, b) :: l) ++ suf)
        (pre.length + (encBytes k a).length)
        = .ok (b, pre.length + (encBytes k a).length + (encBytes v b).length) := by
      have := Pv b (pre ++ encBytes k a) (encEntries k v l ++ suf) hwf.1.2
      rw [encEntries]
      simpa [List.append_assoc] using this
    have hins : mapInsert a b acc = acc ++ [(a, b)] :=
      mapInsert_append a b acc (fun x hx => hgt (a, b) (by simp) x hx)
    have h3 : loadEntries k v l.length (acc ++ [(a, b)])
        (pre ++ encEntries k v ((a, b) :: l) ++ suf)
        (pre.length + (encBytes k a).length + (encBytes v b).length)
        = .ok (acc ++ [(a, b)] ++ l,
            pre.length + (encBytes k a).length + (encBytes v b).length
              + (encEntries k v l).length) := by
      have hgt' : ∀ e ∈ l, ∀ x ∈ acc ++ [(a, b)], Val.cmp e.1 x.1 = .gt := by
        intro e he x hx
        rcases List.mem_append.mp hx with hx | hx
        · exact hgt e (by simp [he]) x hx
        · have hx' : x = (a, b) := by simpa using hx
          subst hx'
          have hall := hasc.1
          rw [List.all_eq_true] at hall
          have hbeq := hall e he
          show e.1.cmp a = Ordering.gt
          cases h' : e.1.cmp a <;> rw [h'] at hbeq <;>
            first | rfl | exact Bool.noConfusion hbeq
      have h := ih (acc ++ [(a, b)]) (pre ++ encBytes k a ++ encBytes v b) suf
        hwf.2 hasc.2 hgt'
      rw [encEntries]
      simp only [List.append_assoc, List.length_append, List.singleton_append,
        Nat.add_assoc] at h ⊢
      exact h
    rw [List.length_cons]
    simp only [loadEntries, h1, h2, hins, h3]
    rw [encEntries]
    simp only [List.length_append, List.append_assoc, List.singleton_append]
    rw [Nat.add_assoc, Nat.add_assoc]

theorem wfElems_mem {t : Ty} :
    ∀ {vs : List Val}, wfElems t vs = true → ∀ x ∈ vs, wf t x = true := by
  intro vs
  induction vs with
  | nil => intro _ x hx; cases hx
  | cons v vs ih =>
    intro h x hx
    rw [wfElems, Bool.and_eq_true] at h
    rcases List.mem_cons.mp hx with hx | hx
    · subst hx; exact h.1
    · exact ih h.2 x hx

@[simp] theorem listResize_nil {α : Type} (n : Nat) (d : α) :
    listResize ([] : List α) n d = List.replicate n d := by
  simp [listResize]

theorem loadVal_enc : ∀ t, LoadOk t := by
  have H : ∀ n (t : Ty), t.sz ≤ n → LoadOk t := by
    intro n
    induction n with
    | zero =>
      intro t ht
      cases t <;> (simp only [Ty.sz] at ht; omega)
    | succ n ihn =>
      intro t ht
      cases t with
      | scalar w =>
        intro v pre suf hwf
        cases v <;> try exact Bool.noConfusion hwf
        case vnum m =>
          rw [wf_scalar, decide_eq_true_eq] at hwf
          have hb := loadBytes_ok pre (scalarBytes w m) suf
          simp only [scalarBytes_length] at hb
          simp only [loadVal, encBytes_scalar, scalarBytes_length, hb]
          rw [bytesToScalar_scalarBytes, Nat.mod_eq_of_lt hwf]
      | enumTy w =>
        intro v pre suf hwf
        cases v <;> try exact Bool.noConfusion hwf
        case vnum m =>
          rw [wf_enum, decide_eq_true_eq] at hwf
          have hb := loadBytes_ok pre (scalarBytes w m) suf
          simp only [scalarBytes_length] at hb
          simp only [loadVal, encBytes_enum, scalarBytes_length, hb]
          rw [bytesToScalar_scalarBytes, Nat.mod_eq_of_lt hwf]
      | fixedArray m t =>
        intro v pre suf hwf
        cases v <;> try exact Bool.noConfusion hwf
        case vlist vs =>
          rw [wf_fixedArray, Bool.and_eq_true, decide_eq_true_eq] at hwf
          have Pt : LoadOk t := ihn t (by simp only [Ty.sz] at ht; omega)
          have he := loadElems_ok Pt vs pre suf hwf.2
          simp only [loadVal, encBytes_fixedArray, defaultVal, listOf_vlist, ← hwf.1, he]
      | pairTy a b =>
        intro v pre suf hwf
        cases v <;> try exact Bool.noConfusion hwf
        case vpair x y =>
          rw [wf_pair, Bool.and_eq_true] at hwf
          have Pa : LoadOk a := ihn a (by simp only [Ty.sz] at ht; omega)
          have Pb : LoadOk b := ihn b (by simp only [Ty.sz] at ht; omega)
          have h1 : loadVal a (defaultVal a)
              (pre ++ (encBytes a x ++ encBytes b y) ++ suf) pre.length
              = .ok (x, pre.length + (encBytes a x).length) := by
            have := Pa x pre (encBytes b y ++ suf) hwf.1
            simpa [List.append_assoc] using this
          have h2 : loadVal b (defaultVal b)
              (pre ++ (encBytes a x ++ encBytes b y) ++ suf)
              (pre.length + (encBytes a x).length)
              = .ok (y, pre.length + (encBytes a x).length + (encBytes b y).length) := by
            have := Pb y (pre ++ encBytes a x) suf hwf.2
            simp only [List.append_assoc, List.length_append, Nat.add_assoc] at this ⊢
            exact this
          simp only [loadVal, encBytes_pair, defaultVal, fstOf_vpair, sndOf_vpair, h1, h2]
          simp only [List.length_append, Nat.add_assoc]
      | tupleTy ts =>
        intro v pre suf hwf
        cases v <;> try exact Bool.noConfusion hwf
        case vlist vs =>
          rw [wf_tuple] at hwf
          have P : ∀ t' ∈ ts, LoadOk t' := fun t' ht' =>
            ihn t' (by
              have := sz_lt_szList_of_mem ht'
              simp only [Ty.sz] at ht
              omega)
          have he := loadTuple_ok P vs pre suf hwf
          simp only [loadVal, encBytes_tuple, defaultVal, listOf_vlist, he]
      | seqTy t =>
        intro v pre suf hwf
        cases v <;> try exact Bool.noConfusion hwf
        case vlist vs =>
          rw [wf_seq, Bool.and_eq_true, decide_eq_true_eq] at hwf
          have hmod : vs.length % 4294967296 = vs.length := Nat.mod_eq_of_lt hwf.1
          have hval : bytesToScalar (scalarBytes 4 vs.length) = vs.length := by
            rw [bytesToScalar_scalarBytes,
              show (2 : Nat) ^ (8 * 4) = 4294967296 by norm_num]
            exact hmod
          by_cases hsc : t.isScalarLike
          · rw [encBytes_seq, if_pos hsc, hmod, List.take_length]
            have hb : loadBytes 4
                (pre ++ (scalarBytes 4 vs.length ++ rawBytes t.width vs) ++ suf)
                pre.length
                = .ok (scalarBytes 4 vs.length, pre.length + 4) := by
              have := loadBytes_ok pre (scalarBytes 4 vs.length)
                (rawBytes t.width vs ++ suf)
              simp only [scalarBytes_length] at this
              simpa [List.append_assoc] using this
            simp only [loadVal, hb, hval]
            by_cases hzero : vs.length = 0
            · have hnil : vs = [] := List.length_eq_zero.mp hzero
              subst hnil
              simp [hsc, rawBytes, scalarBytes_length]
            · rw [if_pos hsc, if_neg hzero]
              have hb2 : loadBytes (vs.length * t.width)
                  (pre ++ (scalarBytes 4 vs.length ++ rawBytes t.width vs) ++ suf)
                  (pre.length + 4)
                  = .ok (rawBytes t.width vs, pre.length + 4 + vs.length * t.width) := by
                have := loadBytes_ok (pre ++ scalarBytes 4 vs.length)
                  (rawBytes t.width vs) suf
                simp only [rawBytes_length, List.length_append, scalarBytes_length]
                  at this
                simp only [List.append_assoc, Nat.add_assoc] at this ⊢
                simpa [rawBytes_length] using this
              have hdec : decodeRaw t.width vs.length (rawBytes t.width vs) = vs := by
                apply decodeRaw_rawBytes
                intro x hx
                exact scalarLike_wf_inv hsc (wfElems_mem hwf.2 x hx)
              simp only [hb2, hdec]
              simp only [List.length_append, scalarBytes_length, rawBytes_length,
                Nat.add_assoc]
          · rw [encBytes_seq, if_neg hsc]
            have hb : loadBytes 4
                (pre ++ (scalarBytes 4 vs.length ++ encElems t vs) ++ suf)
                pre.length
                = .ok (scalarBytes 4 vs.length, pre.length + 4) := by
              have := loadBytes_ok pre (scalarBytes 4 vs.length) (encElems t vs ++ suf)
              simp only [scalarBytes_length] at this
              simpa [List.append_assoc] using this
            have Pt : LoadOk t := ihn t (by simp only [Ty.sz] at ht; omega)
            have he : loadElems t (List.replicate vs.length (defaultVal t))
                (pre ++ (scalarBytes 4 vs.length ++ encElems t vs) ++ suf)
                (pre.length + 4)
                = .ok (vs, pre.length + 4 + (encElems t vs).length) := by
              have := loadElems_ok Pt vs (pre ++ scalarBytes 4 vs.length) suf hwf.2
              simp only [List.append_assoc, List.length_append, scalarBytes_length,
                Nat.add_assoc] at this ⊢
              exact this
            simp only [loadVal, hb, hval, if_neg hsc, defaultVal, listOf_vlist,
              listResize_nil, he]
            simp only [List.length_append, scalarBytes_length, Nat.add_assoc]
      | assocTy k v =>
        intro vv pre suf hwf
        cases vv <;> try exact Bool.noConfusion hwf
        case vmap l =>
          rw [wf_assoc, Bool.and_eq_true, Bool.and_eq_true, decide_eq_true_eq] at hwf
          have hval : bytesToScalar (scalarBytes 4 l.length) = l.length := by
            rw [bytesToScalar_scalarBytes,
              show (2 : Nat) ^ (8 * 4) = 4294967296 by norm_num]
            exact Nat.mod_eq_of_lt hwf.1.1
          have Pk : LoadOk k := ihn k (by simp only [Ty.sz] at ht; omega)
          have Pv : LoadOk v := ihn v (by simp only [Ty.sz] at ht; omega)
          rw [encBytes_assoc]
          have hb : loadBytes 4
              (pre ++ (scalarBytes 4 l.length ++ encEntries k v l) ++ suf)
              pre.length
              = .ok (scalarBytes 4 l.length, pre.length + 4) := by
            have := loadBytes_ok pre (scalarBytes 4 l.length) (encEntries k v l ++ suf)
            simp only [scalarBytes_length] at this
            simpa [List.append_assoc] using this
          have he : loadEntries k v l.length ([] : List (Val × Val))
              (pre ++ (scalarBytes 4 l.length ++ encEntries k v l) ++ suf)
              (pre.length + 4)
              = .ok (l, pre.length + 4 + (encEntries k v l).length) := by
            have := loadEntries_ok Pk Pv l [] (pre ++ scalarBytes 4 l.length) suf
              hwf.1.2 hwf.2 (fun e _ x hx => absurd hx (List.not_mem_nil x))
            simp only [List.append_assoc, List.length_append, scalarBytes_length,
              List.nil_append, Nat.add_assoc] at this ⊢
            exact this
          simp only [loadVal, hb, hval, defaultVal, mapOf_vmap, he]
          simp only [List.length_append, scalarBytes_length, Nat.add_assoc]
      | ptrTy t =>
        intro v pre suf hwf
        cases v <;> try exact Bool.noConfusion hwf
        case vptr o =>
          cases o with
          | none => exact Bool.noConfusion hwf
          | some x =>
            rw [wf_ptr_some] at hwf
            have Pt : LoadOk t := ihn t (by simp only [Ty.sz] at ht; omega)
            have h := Pt x pre suf hwf
            simp only [loadVal, encBytes_ptr_some, h]
  intro t
  exact H t.sz t le_rfl

/-- A `memory_output_archive` call on a buffer appends exactly the value's
byte image and leaves the buffer fitted to the logical size. -/
theorem memOutSaveVal_ok (t : Ty) (v : Val) (buf : List Nat) (h : wf t v = true) :
    memOutSaveVal t v buf
      = .ok ⟨buf ++ encBytes t v, buf.length + (encBytes t v).length⟩ := by
  obtain ⟨s', e, hsz, hle, htk⟩ := saveVal_ok t v ⟨buf, buf.length⟩ h (le_refl _)
  simp only [List.take_length] at htk
  have hfit : fit_vector s'
      = ⟨buf ++ encBytes t v, buf.length + (encBytes t v).length⟩ := by
    unfold fit_vector vecResize
    rw [if_pos hle, htk, hsz]
  unfold memOutSaveVal memOutRun
  rw [e]
  show Except.ok (fit_vector s') = _
  rw [hfit]

/-- Claim C1: for every well-formed value of a supported shape (scalar, enum,
fixed array, tuple, pair, resizable sequence, associative container, owning
pointer, nested combinations), saving through the output archive produces
exactly the value's byte image, and loading those bytes back on the same
platform reconstructs an equal value; moreover two consecutive saves
concatenate, and two loads from the concatenated stream return the two
original values in order. -/
theorem c1_round_trip :
    ∀ (ta tb : Ty) (a b : Val), wf ta a = true → wf tb b = true →
      (memOutSaveVal ta a [] = .ok ⟨encBytes ta a, (encBytes ta a).length⟩ ∧
        loadVal ta (defaultVal ta) (encBytes ta a) 0
          = .ok (a, (encBytes ta a).length)) ∧
      (memOutSaveVal tb b (encBytes ta a)
          = .ok ⟨encBytes ta a ++ encBytes tb b,
              (encBytes ta a).length + (encBytes tb b).length⟩ ∧
        loadVal ta (defaultVal ta) (encBytes ta a ++ encBytes tb b) 0
          = .ok (a, (encBytes ta a).length) ∧
        loadVal tb (defaultVal tb) (encBytes ta a ++ encBytes tb b)
            (encBytes ta a).length
          = .ok (b, (encBytes ta a).length + (encBytes tb b).length)) := by
  intro ta tb a b ha hb
  refine ⟨⟨?_, ?_⟩, ?_, ?_, ?_⟩
  · simpa using memOutSaveVal_ok ta a [] ha
  · have := loadVal_enc ta a [] [] ha
    simpa using this
  · exact memOutSaveVal_ok tb b (encBytes ta a) hb
  · have := loadVal_enc ta a [] (encBytes tb b) ha
    simpa using this
  · have := loadVal_enc tb b (encBytes ta a) [] hb
    simpa using this

/-- Closed-instance witness for `c1_round_trip`. -/
theorem c1_round_trip_witness :
    wf (.scalar 2) (.vnum 1337) = true ∧ wf (.scalar 2) (.vnum 1338) = true ∧
      (memOutSaveVal (.scalar 2) (.vnum 1337) []
          = .ok ⟨encBytes (.scalar 2) (.vnum 1337),
              (encBytes (.scalar 2) (.vnum 1337)).length⟩ ∧
        loadVal (.scalar 2) (defaultVal (.scalar 2)) (encBytes (.scalar 2) (.vnum 1337)) 0
          = .ok (.vnum 1337, (encBytes (.scalar 2) (.vnum 1337)).length)) :=
  ⟨by decide, by decide,
    (c1_round_trip (.scalar 2) (.scalar 2) (.vnum 1337) (.vnum 1338)
      (by decide) (by decide)).1⟩

/-! ## Cursor bounds of the view archive

Any read sequence that completes normally only moves the cursor forward and
never past the end of the borrowed slice — this is what makes the consuming
archive's head erasure well defined. -/

theorem loadBytes_le {c : Nat} {input : List Nat} {off : Nat} {bs : List Nat}
    {off' : Nat} (h : loadBytes c input off = .ok (bs, off')) :
    off ≤ off' ∧ off' ≤ input.length ∧ off' = off + c ∧ bs.length = c := by
  unfold loadBytes at h
  split at h
  · exact absurd h (by simp)
  · simp only [Except.ok.injEq, Prod.mk.injEq] at h
    obtain ⟨h1, h2⟩ := h
    subst h2
    subst h1
    refine ⟨by omega, by omega, rfl, ?_⟩
    simp only [List.length_take, List.length_drop]
    omega

def LoadLe (t : Ty) : Prop :=
  ∀ dest input off v off', off ≤ input.length →
    loadVal t dest input off = .ok (v, off') → off ≤ off' ∧ off' ≤ input.length

theorem loadElems_le {t : Ty} (P : LoadLe t) :
    ∀ (ds : List Val) (input : List Nat) (off : Nat) (ws : List Val) (off' : Nat),
      off ≤ input.length → loadElems t ds input off = .ok (ws, off') →
      off ≤ off' ∧ off' ≤ input.length := by
  intro ds
  induction ds with
  | nil =>
    intro input off ws off' hoff h
    simp only [loadElems, Except.ok.injEq, Prod.mk.injEq] at h
    omega
  | cons d ds ih =>
    intro input off ws off' hoff h
    simp only [loadElems] at h
    cases h1 : loadVal t d input off with
    | error e => rw [h1] at h; exact absurd h (by simp)
    | ok p =>
      obtain ⟨x, o1⟩ := p
      simp only [h1] at h
      have b1 := P d input off x o1 hoff h1
      cases h2 : loadElems t ds input o1 with
      | error e => rw [h2] at h; exact absurd h (by simp)
      | ok q =>
        obtain ⟨xs, o2⟩ := q
        simp only [h2] at h
        have b2 := ih input o1 xs o2 b1.2 h2
        simp only [Except.ok.injEq, Prod.mk.injEq] at h
        omega

theorem loadTuple_le {ts : List Ty} (P : ∀ t ∈ ts, LoadLe t) :
    ∀ (ds : List Val) (input : List Nat) (off : Nat) (ws : List Val) (off' : Nat),
      off ≤ input.length → loadTuple ts ds input off = .ok (ws, off') →
      off ≤ off' ∧ off' ≤ input.length := by
  induction ts with
  | nil =>
    intro ds input off ws off' hoff h
    simp only [loadTuple, Except.ok.injEq, Prod.mk.injEq] at h
    omega
  | cons t ts ih =>
    intro ds input off ws off' hoff h
    simp only [loadTuple] at h
    cases h1 : loadVal t (ds.headD (defaultVal t)) input off with
    | error e => rw [h1] at h; exact absurd h (by simp)
    | ok p =>
      obtain ⟨x, o1⟩ := p
      simp only [h1] at h
      have b1 := P t (by simp) (ds.headD (defaultVal t)) input off x o1 hoff h1
      cases h2 : loadTuple ts ds.tail input o1 with
      | error e => rw [h2] at h; exact absurd h (by simp)
      | ok q =>
        obtain ⟨xs, o2⟩ := q
        simp only [h2] at h
        have b2 := ih (fun t' ht' => P t' (by simp [ht'])) ds.tail input o1 xs o2 b1.2 h2
        simp only [Except.ok.injEq, Prod.mk.injEq] at h
        omega

theorem loadEntries_le {k v : Ty} (Pk : LoadLe k) (Pv : LoadLe v) :
    ∀ (n : Nat) (acc : List (Val × Val)) (input : List Nat) (off : Nat)
      (m : List (Val × Val)) (off' : Nat),
      off ≤ input.length → loadEntries k v n acc input off = .ok (m, off') →
      off ≤ off' ∧ off' ≤ input.length := by
  intro n
  induction n with
  | zero =>
    intro acc input off m off' hoff h
    simp only [loadEntries, Except.ok.injEq, Prod.mk.injEq] at h
    omega
  | succ n ih =>
    intro acc input off m off' hoff h
    simp only [loadEntries] at h
    cases h1 : loadVal k (defaultVal k) input off with
    | error e => rw [h1] at h; exact absurd h (by simp)
    | ok p =>
      obtain ⟨a, o1⟩ := p
      simp only [h1] at h
      have b1 := Pk (defaultVal k) input off a o1 hoff h1
      cases h2 : loadVal v (defaultVal v) input o1 with
      | error e => rw [h2] at h; exact absurd h (by simp)
      | ok q =>
        obtain ⟨b, o2⟩ := q
        simp only [h2] at h
        have b2 := Pv (defaultVal v) input o1 b o2 b1.2 h2
        have b3 := ih (mapInsert a b acc) input o2 m off' b2.2 h
        omega

theorem loadVal_le : ∀ t, LoadLe t := by
  have H : ∀ n (t : Ty), t.sz ≤ n → LoadLe t := by
    intro n
    induction n with
    | zero =>
      intro t ht
      cases t <;> (simp only [Ty.sz] at ht; omega)
    | succ n ihn =>
      intro t ht
      cases t with
      | scalar w =>
        intro dest input off v off' hoff h
        simp only [loadVal] at h
        cases hb : loadBytes w input off with
        | error e => rw [hb] at h; exact absurd h (by simp)
        | ok p =>
          obtain ⟨bs, o⟩ := p
          simp only [hb] at h
          have := loadBytes_le hb
          simp only [Except.ok.injEq, Prod.mk.injEq] at h
          omega
      | enumTy w =>
        intro dest input off v off' hoff h
        simp only [loadVal] at h
        cases hb : loadBytes w input off with
        | error e => rw [hb] at h; exact absurd h (by simp)
        | ok p =>
          obtain ⟨bs, o⟩ := p
          simp only [hb] at h
          have := loadBytes_le hb
          simp only [Except.ok.injEq, Prod.mk.injEq] at h
          omega
      | fixedArray m t =>
        intro dest input off v off' hoff h
        simp only [loadVal] at h
        cases he : loadElems t dest.listOf input off with
        | error e => rw [he] at h; exact absurd h (by simp)
        | ok p =>
          obtain ⟨ws, o⟩ := p
          simp only [he] at h
          have Pt : LoadLe t := ihn t (by simp only [Ty.sz] at ht; omega)
          have := loadElems_le Pt dest.listOf input off ws o hoff he
          simp only [Except.ok.injEq, Prod.mk.injEq] at h
          omega
      | pairTy a b =>
        intro dest input off v off' hoff h
        simp only [loadVal] at h
        have Pa : LoadLe a := ihn a (by simp only [Ty.sz] at ht; omega)
        have Pb : LoadLe b := ihn b (by simp only [Ty.sz] at ht; omega)
        cases h1 : loadVal a dest.fstOf input off with
        | error e => rw [h1] at h; exact absurd h (by simp)
        | ok p =>
          obtain ⟨x, o1⟩ := p
          simp only [h1] at h
          have b1 := Pa dest.fstOf input off x o1 hoff h1
          cases h2 : loadVal b dest.sndOf input o1 with
          | error e => rw [h2] at h; exact absurd h (by simp)
          | ok q =>
            obtain ⟨y, o2⟩ := q
            simp only [h2] at h
            have b2 := Pb dest.sndOf input o1 y o2 b1.2 h2
            simp only [Except.ok.injEq, Prod.mk.injEq] at h
            omega
      | tupleTy ts =>
        intro dest input off v off' hoff h
        simp only [loadVal] at h
        cases he : loadTuple ts dest.listOf input off with
        | error e => rw [he] at h; exact absurd h (by simp)
        | ok p =>
          obtain ⟨ws, o⟩ := p
          simp only [he] at h
          have P : ∀ t' ∈ ts, LoadLe t' := fun t' ht' =>
            ihn t' (by
              have := sz_lt_szList_of_mem ht'
              simp only [Ty.sz] at ht
              omega)
          have := loadTuple_le P dest.listOf input off ws o hoff he
          simp only [Except.ok.injEq, Prod.mk.injEq] at h
          omega
      | seqTy t =>
        intro dest input off v off' hoff h
        simp only [loadVal] at h
        cases hb : loadBytes 4 input off with
        | error e => rw [hb] at h; exact absurd h (by simp)
        | ok p =>
          obtain ⟨szb, o1⟩ := p
          simp only [hb] at h
          have b1 := loadBytes_le hb
          by_cases hsc : t.isScalarLike
          · rw [if_pos hsc] at h
            by_cases hz : bytesToScalar szb = 0
            · rw [if_pos hz] at h
              simp only [Except.ok.injEq, Prod.mk.injEq] at h
              omega
            · rw [if_neg hz] at h
              cases hb2 : loadBytes (bytesToScalar szb * t.width) input o1 with
              | error e => rw [hb2] at h; exact absurd h (by simp)
              | ok q =>
                obtain ⟨raw, o2⟩ := q
                simp only [hb2] at h
                have b2 := loadBytes_le hb2
                simp only [Except.ok.injEq, Prod.mk.injEq] at h
                omega
          · rw [if_neg hsc] at h
            cases he : loadElems t
                (listResize dest.listOf (bytesToScalar szb) (defaultVal t)) input o1 with
            | error e => rw [he] at h; exact absurd h (by simp)
            | ok q =>
              obtain ⟨ws, o2⟩ := q
              simp only [he] at h
              have Pt : LoadLe t := ihn t (by simp only [Ty.sz] at ht; omega)
              have b2 := loadElems_le Pt _ input o1 ws o2 b1.2.1 he
              simp only [Except.ok.injEq, Prod.mk.injEq] at h
              omega
      | assocTy k v =>
        intro dest input off vv off' hoff h
        simp only [loadVal] at h
        cases hb : loadBytes 4 input off with
        | error e => rw [hb] at h; exact absurd h (by simp)
        | ok p =>
          obtain ⟨szb, o1⟩ := p
          simp only [hb] at h
          have b1 := loadBytes_le hb
          cases he : loadEntries k v (bytesToScalar szb) dest.mapOf input o1 with
          | error e => rw [he] at h; exact absurd h (by simp)
          | ok q =>
            obtain ⟨m, o2⟩ := q
            simp only [he] at h
            have Pk : LoadLe k := ihn k (by simp only [Ty.sz] at ht; omega)
            have Pv : LoadLe v := ihn v (by simp only [Ty.sz] at ht; omega)
            have b2 := loadEntries_le Pk Pv _ dest.mapOf input o1 m o2 b1.2.1 he
            simp only [Except.ok.injEq, Prod.mk.injEq] at h
            omega
      | ptrTy t =>
        intro dest input off v off' hoff h
        simp only [loadVal] at h
        cases h1 : loadVal t (defaultVal t) input off with
        | error e => rw [h1] at h; exact absurd h (by simp)
        | ok p =>
          obtain ⟨x, o1⟩ := p
          simp only [h1] at h
          have Pt : LoadLe t := ihn t (by simp only [Ty.sz] at ht; omega)
          have := Pt (defaultVal t) input off x o1 hoff h1
          simp only [Except.ok.injEq, Prod.mk.injEq] at h
          omega
  intro t
  exact H t.sz t le_rfl

/-- Claim C6: a load call on the consuming `memory_input_archive` that
completes normally erases exactly the bytes it consumed — an in-order prefix
of the source buffer whose length is the view cursor's final position — from
the head of the buffer, and resets the cursor to zero. -/
theorem c6_consuming_erase :
    ∀ (t : Ty) (dest : Val) (st : MemInState) (v : Val) (off1 : Nat),
      loadVal t dest st.buf 0 = .ok (v, off1) →
      memInRun (loadVal t dest) st = .ok (v, ⟨st.buf.drop off1, 0⟩) ∧
        off1 ≤ st.buf.length ∧
        st.buf = st.buf.take off1 ++ st.buf.drop off1 := by
  intro t dest st v off1 h
  refine ⟨?_, ?_, (List.take_append_drop off1 st.buf).symm⟩
  · unfold memInRun
    rw [h]
  · exact (loadVal_le t dest st.buf 0 v off1 (Nat.zero_le _) h).2

/-- Closed-instance witness for `c6_consuming_erase`. -/
theorem c6_consuming_erase_witness :
    loadVal (.scalar 2) (.vnum 0) [7, 1, 9] 0 = .ok (.vnum 263, 2) ∧
      (memInRun (loadVal (.scalar 2) (.vnum 0)) ⟨[7, 1, 9], 0⟩
          = .ok (.vnum 263, ⟨[9], 0⟩) ∧
        2 ≤ ([7, 1, 9] : List Nat).length ∧
        ([7, 1, 9] : List Nat)
          = ([7, 1, 9] : List Nat).take 2 ++ ([7, 1, 9] : List Nat).drop 2) := by
  have hload : loadVal (.scalar 2) (.vnum 0) [7, 1, 9] 0 = .ok (.vnum 263, 2) := by
    simp [loadVal, loadBytes, bytesToScalar]
  exact ⟨hload, c6_consuming_erase (.scalar 2) (.vnum 0) ⟨[7, 1, 9], 0⟩ (.vnum 263) 2 hload⟩

/-! ## The 32-bit size prefix -/

theorem loadBytes_len {c : Nat} {input : List Nat} {off : Nat} {bs : List Nat}
    {off' : Nat} (h : loadBytes c input off = .ok (bs, off')) : bs.length = c :=
  (loadBytes_le h).2.2.2

theorem decodeRaw_length (w : Nat) : ∀ (n : Nat) (bs : List Nat),
    (decodeRaw w n bs).length = n := by
  intro n
  induction n with
  | zero => intro bs; rfl
  | succ n ih => intro bs; simp [decodeRaw, ih]

theorem listResize_length {α : Type} (l : List α) (n : Nat) (d : α) :
    (listResize l n d).length = n := by
  simp only [listResize, List.length_append, List.length_take, List.length_replicate]
  omega

theorem loadElems_length {t : Ty} :
    ∀ (ds : List Val) (input : List Nat) (off : Nat) (ws : List Val) (off' : Nat),
      loadElems t ds input off = .ok (ws, off') → ws.length = ds.length := by
  intro ds
  induction ds with
  | nil =>
    intro input off ws off' h
    simp only [loadElems, Except.ok.injEq, Prod.mk.injEq] at h
    rw [← h.1]
  | cons d ds ih =>
    intro input off ws off' h
    simp only [loadElems] at h
    cases h1 : loadVal t d input off with
    | error e => rw [h1] at h; exact absurd h (by simp)
    | ok p =>
      obtain ⟨x, o1⟩ := p
      simp only [h1] at h
      cases h2 : loadElems t ds input o1 with
      | error e => rw [h2] at h; exact absurd h (by simp)
      | ok q =>
        obtain ⟨xs, o2⟩ := q
        simp only [h2, Except.ok.injEq, Prod.mk.injEq] at h
        rw [← h.1]
        simp [ih input o1 xs o2 h2]

/-- Claim C9: the 32-bit size prefix bounds the element count of every
variable-length container.  Saving writes `count mod 2^32` as the prefix —
faithful for up to `2^32 - 1` elements (and a sequence of exactly `2^32 - 1`
well-formed elements is inside the contract), but a container of `2^32`
elements silently yields the prefix 0, so it is out of contract; and no load
can ever produce a sequence of `2^32` or more elements. -/
theorem c9_size_limit :
    ∀ (t : Ty) (vs : List Val) (dest : Val) (input : List Nat) (off : Nat)
      (v2 : Val) (off2 : Nat),
      ((encBytes (.seqTy t) (.vlist vs)).take 4 = scalarBytes 4 vs.length ∧
        bytesToScalar ((encBytes (.seqTy t) (.vlist vs)).take 4)
          = vs.length % 4294967296) ∧
      (vs.length < 4294967296 →
        bytesToScalar ((encBytes (.seqTy t) (.vlist vs)).take 4) = vs.length) ∧
      (vs.length = 4294967296 →
        bytesToScalar ((encBytes (.seqTy t) (.vlist vs)).take 4) = 0 ∧
          0 ≠ vs.length) ∧
      (vs.length = 4294967295 → wfElems t vs = true →
        wf (.seqTy t) (.vlist vs) = true) ∧
      (loadVal (.seqTy t) dest input off = .ok (v2, off2) →
        ∃ ws, v2 = .vlist ws ∧ ws.length < 4294967296) := by
  intro t vs dest input off v2 off2
  have htake : (encBytes (.seqTy t) (.vlist vs)).take 4 = scalarBytes 4 vs.length := by
    rw [encBytes_seq]
    split <;> exact List.take_left' (scalarBytes_length 4 vs.length)
  have hval : bytesToScalar ((encBytes (.seqTy t) (.vlist vs)).take 4)
      = vs.length % 4294967296 := by
    rw [htake, bytesToScalar_scalarBytes,
      show (2 : Nat) ^ (8 * 4) = 4294967296 by norm_num]
  refine ⟨⟨htake, hval⟩, ?_, ?_, ?_, ?_⟩
  · intro hlt
    rw [hval, Nat.mod_eq_of_lt hlt]
  · intro heq
    rw [hval, heq]
    exact ⟨by norm_num, by omega⟩
  · intro hlen hwfe
    rw [wf_seq, hlen]
    simp [hwfe]
  · intro h
    simp only [loadVal] at h
    cases hb : loadBytes 4 input off with
    | error e => rw [hb] at h; exact absurd h (by simp)
    | ok p =>
      obtain ⟨szb, o1⟩ := p
      simp only [hb] at h
      have hszb : bytesToScalar szb < 4294967296 := by
        have h4 : szb.length = 4 := loadBytes_len hb
        have := bytesToScalar_lt szb
        rw [h4] at this
        simpa using this
      by_cases hsc : t.isScalarLike
      · rw [if_pos hsc] at h
        by_cases hz : bytesToScalar szb = 0
        · rw [if_pos hz] at h
          simp only [Except.ok.injEq, Prod.mk.injEq] at h
          exact ⟨[], h.1.symm, by norm_num⟩
        · rw [if_neg hz] at h
          cases hb2 : loadBytes (bytesToScalar szb * t.width) input o1 with
          | error e => rw [hb2] at h; exact absurd h (by simp)
          | ok q =>
            obtain ⟨raw, o2⟩ := q
            simp only [hb2, Except.ok.injEq, Prod.mk.injEq] at h
            refine ⟨decodeRaw t.width (bytesToScalar szb) raw, h.1.symm, ?_⟩
            rw [decodeRaw_length]
            exact hszb
      · rw [if_neg hsc] at h
        cases he : loadElems t
            (listResize dest.listOf (bytesToScalar szb) (defaultVal t)) input o1 with
        | error e => rw [he] at h; exact absurd h (by simp)
        | ok q =>
          obtain ⟨ws, o2⟩ := q
          simp only [he, Except.ok.injEq, Prod.mk.injEq] at h
          refine ⟨ws, h.1.symm, ?_⟩
          rw [loadElems_length _ input o1 ws o2 he, listResize_length]
          exact hszb

/-- Closed-instance witness for `c9_size_limit`. -/
theorem c9_size_limit_witness :
    ((encBytes (.seqTy (.scalar 1)) (.vlist [.vnum 7])).take 4 = scalarBytes 4 1 ∧
        bytesToScalar ((encBytes (.seqTy (.scalar 1)) (.vlist [.vnum 7])).take 4)
          = 1 % 4294967296) ∧
      bytesToScalar ((encBytes (.seqTy (.scalar 1)) (.vlist [.vnum 7])).take 4) = 1 :=
  ⟨⟨((c9_size_limit (.scalar 1) [.vnum 7] (.vnum 0) [] 0 (.vnum 0) 0).1.1),
      ((c9_size_limit (.scalar 1) [.vnum 7] (.vnum 0) [] 0 (.vnum 0) 0).1.2)⟩,
    (c9_size_limit (.scalar 1) [.vnum 7] (.vnum 0) [] 0 (.vnum 0) 0).2.1 (by decide)⟩

/-! ## The polymorphic registry

`registry<Archive>` holds two `unordered_map`s: dynamic-type-key to id (save
direction) and id to serialization method.  A registered serialization method
is determined by the concrete type it was created for
(`make_serialization_method<Archive, Type>`), so the registry stores
`PolyType` records: the concrete type's dynamic-type key (`typeid` name),
the keys of the bases it is convertible to (what `dynamic_cast` accepts),
and the shape of its serialized payload.  A runtime polymorphic object
(`PolyObj`) carries its dynamic-type key, its base keys, and its state. -/

structure PolyType where
  key : Nat
  bases : List Nat
  ty : Ty

structure PolyObj where
  key : Nat
  bases : List Nat
  val : Val

/-- `unordered_map::find` on an association list (insertion order, unique
keys). -/
def lookupMap {β : Type} (m : List (Nat × β)) (k : Nat) : Option β :=
  match m.find? (fun e => e.1 == k) with
  | some e => some e.2
  | none => none

/-- `unordered_map::emplace`: inserts only when the key is absent. -/
def emplace {β : Type} (m : List (Nat × β)) (k : Nat) (v : β) : List (Nat × β) :=
  if (m.find? (fun e => e.1 == k)).isSome then m else m ++ [(k, v)]

structure SaveRegistry where
  typeToId : List (Nat × Nat)
  idToType : List (Nat × PolyType)

structure LoadRegistry where
  idToType : List (Nat × PolyType)

/-- `registry::add` for the saving direction: emplace `id ↦ method` and
`dynamic-type-key ↦ id`. -/
def registryAdd (reg : SaveRegistry) (T : PolyType) (id : Nat) : SaveRegistry :=
  ⟨emplace reg.typeToId T.key id, emplace reg.idToType id T⟩

/-- `registry::serialize` for a saving archive: look up the id by the
object's `typeid` name (raise `undeclared_polymorphic_type` on a miss), look
up the method by id, save the 8-byte id, then run the method — which is
`archive(dynamic_cast<const Type &>(object))`, raising `std::bad_cast` if
the object is not a `Type`. -/
def registrySave (reg : SaveRegistry) (obj : PolyObj) (s : OutState) :
    Except (Err × OutState) OutState :=
  match lookupMap reg.typeToId obj.key with
  | none => .error (.undeclaredPolymorphicType, s)
  | some id =>
    match lookupMap reg.idToType id with
    | none => .error (.undeclaredPolymorphicType, s)
    | some T =>
      if obj.key = T.key ∨ T.key ∈ obj.bases then
        saveVal T.ty obj.val (lazySerialize s (scalarBytes 8 id))
      else .error (.badCast, lazySerialize s (scalarBytes 8 id))

/-- Saving a `std::unique_ptr`/`std::shared_ptr` to a polymorphic base:
reject null with `attempt_to_serialize_null`, otherwise delegate to the
registry. -/
def savePtrPoly (reg : SaveRegistry) (o : Option PolyObj) (s : OutState) :
    Except (Err × OutState) OutState :=
  match o with
  | .none => .error (.attemptToSerializeNull, s)
  | .some obj => registrySave reg obj s

/-- Saving through `polymorphic_wrapper` (the `as_polymorphic` facility):
delegate to the registry. -/
def saveAsPolymorphic (reg : SaveRegistry) (obj : PolyObj) (s : OutState) :
    Except (Err × OutState) OutState :=
  registrySave reg obj s

/-- `registry::serialize` for a loading archive: load the 8-byte id, look up
the method (raise `undeclared_polymorphic_type` on a miss), then run the
method — which default-constructs the concrete type, loads it, and hands it
back as an owning pointer to `polymorphic`. -/
def registryLoad (reg : LoadRegistry) (input : List Nat) (off : Nat) :
    Except (Err × Nat) (PolyObj × Nat) :=
  match loadBytes 8 input off with
  | .error e => .error e
  | .ok (idb, o1) =>
    match lookupMap reg.idToType (bytesToScalar idb) with
    | none => .error (.undeclaredPolymorphicType, o1)
    | some T =>
      match loadVal T.ty (defaultVal T.ty) input o1 with
      | .error e => .error e
      | .ok (x, o2) => .ok (⟨T.key, T.bases, x⟩, o2)

/-- Loading a `std::unique_ptr`/`std::shared_ptr` whose declared static
pointee type has dynamic-type key `decl`: load through the registry, then
`dynamic_cast` the constructed object to the declared type and `reset` the
destination pointer; if the cast fails, raise `polymorphic_type_mismatch`
and leave the destination untouched (the error also carries the cursor,
which stays past the consumed bytes, and the unchanged destination). -/
def loadPtrPoly (decl : Nat) (reg : LoadRegistry) (dest : Option PolyObj)
    (input : List Nat) (off : Nat) :
    Except (Err × Nat × Option PolyObj) (Option PolyObj × Nat) :=
  match registryLoad reg input off with
  | .error (e, o) => .error (e, o, dest)
  | .ok (obj, o2) =>
    if decl = obj.key ∨ decl ∈ obj.bases then .ok (.some obj, o2)
    else .error (.polymorphicTypeMismatch, o2, dest)

/-- Claim C3: saving an object whose dynamic type `T` is registered under
`id` — through an owning pointer or the `as_polymorphic` wrapper — writes
exactly the 8-byte id followed by `T`'s non-polymorphic encoding; an object
of unregistered dynamic type raises `undeclared_polymorphic_type` with no
bytes written. -/
theorem c3_registry_save :
    ∀ (reg : SaveRegistry) (obj : PolyObj) (id : Nat) (T : PolyType) (s : OutState),
      (lookupMap reg.typeToId obj.key = some id →
        lookupMap reg.idToType id = some T →
        obj.key = T.key →
        wf T.ty obj.val = true →
        s.size ≤ s.out.length →
        ∃ s', savePtrPoly reg (.some obj) s = .ok s' ∧
          saveAsPolymorphic reg obj s = .ok s' ∧
          s'.size = s.size + (8 + (encBytes T.ty obj.val).length) ∧
          s'.out.take s'.size
            = s.out.take s.size ++ (scalarBytes 8 id ++ encBytes T.ty obj.val)) ∧
      (lookupMap reg.typeToId obj.key = none →
        savePtrPoly reg (.some obj) s = .error (.undeclaredPolymorphicType, s) ∧
        saveAsPolymorphic reg obj s = .error (.undeclaredPolymorphicType, s)) := by
  intro reg obj id T s
  constructor
  · intro h1 h2 h3 hwf hinv
    have hsave : registrySave reg obj s
        = saveVal T.ty obj.val (lazySerialize s (scalarBytes 8 id)) := by
      unfold registrySave
      simp only [h1, h2]
      rw [if_pos (Or.inl h3)]
    obtain ⟨hsz1, hle1, htk1⟩ := lazySerialize_spec s (scalarBytes 8 id) hinv
    obtain ⟨s', e, hsz2, hle2, htk2⟩ :=
      saveVal_ok T.ty obj.val (lazySerialize s (scalarBytes 8 id)) hwf hle1
    refine ⟨s', ?_, ?_, ?_, ?_⟩
    · show registrySave reg obj s = .ok s'
      rw [hsave, e]
    · show registrySave reg obj s = .ok s'
      rw [hsave, e]
    · rw [hsz2, hsz1]
      simp only [scalarBytes_length]
      omega
    · rw [htk2, hsz1, htk1, List.append_assoc]
  · intro h1
    have : registrySave reg obj s = .error (.undeclaredPolymorphicType, s) := by
      unfold registrySave
      rw [h1]
    exact ⟨this, this⟩

/-- Closed-instance witness for `c3_registry_save`. -/
theorem c3_registry_save_witness :
    lookupMap (registryAdd ⟨[], []⟩ ⟨5, [], .scalar 1⟩ 99).typeToId 5 = some 99 ∧
      (∃ s', savePtrPoly (registryAdd ⟨[], []⟩ ⟨5, [], .scalar 1⟩ 99)
            (.some ⟨5, [], .vnum 3⟩) ⟨[], 0⟩ = .ok s' ∧
          saveAsPolymorphic (registryAdd ⟨[], []⟩ ⟨5, [], .scalar 1⟩ 99)
            ⟨5, [], .vnum 3⟩ ⟨[], 0⟩ = .ok s' ∧
          s'.size = 0 + (8 + (encBytes (.scalar 1) (.vnum 3)).length) ∧
          s'.out.take s'.size
            = ([] : List Nat).take 0
                ++ (scalarBytes 8 99 ++ encBytes (.scalar 1) (.vnum 3))) :=
  ⟨by decide,
    (c3_registry_save (registryAdd ⟨[], []⟩ ⟨5, [], .scalar 1⟩ 99)
        ⟨5, [], .vnum 3⟩ 99 ⟨5, [], .scalar 1⟩ ⟨[], 0⟩).1
      (by decide) rfl rfl (by decide) (by decide)⟩

/-- Claim C8: saving a null owning pointer — `unique_ptr` or `shared_ptr`
(the source's handlers for both are identical), polymorphic or not — raises
`attempt_to_serialize_null` with the archive state untouched, so no bytes
and in particular no 8-byte id are written. -/
theorem c8_null_owning_pointer :
    ∀ (t : Ty) (reg : SaveRegistry) (s : OutState),
      saveVal (.ptrTy t) (.vptr .none) s = .error (.attemptToSerializeNull, s) ∧
      savePtrPoly reg .none s = .error (.attemptToSerializeNull, s) := by
  intro t reg s
  exact ⟨rfl, rfl⟩

/-- Claim C10: loading a polymorphic owning pointer when the registry
constructs an object whose dynamic type is not convertible to the declared
static pointee type raises `polymorphic_type_mismatch`; the destination
pointer keeps its previous value and the stream bytes for the value (the
8-byte id plus the payload) remain consumed. -/
theorem c10_polymorphic_type_mismatch :
    ∀ (reg : LoadRegistry) (T : PolyType) (id decl : Nat) (dest : Option PolyObj)
      (pre suf : List Nat) (pv : Val),
      id < 2 ^ 64 →
      lookupMap reg.idToType id = some T →
      wf T.ty pv = true →
      decl ≠ T.key →
      decl ∉ T.bases →
      loadPtrPoly decl reg dest (pre ++ scalarBytes 8 id ++ encBytes T.ty pv ++ suf)
          pre.length
        = .error (.polymorphicTypeMismatch,
            pre.length + (8 + (encBytes T.ty pv).length), dest) := by
  intro reg T id decl dest pre suf pv hid hlk hwf hne hnb
  have hb : loadBytes 8 (pre ++ scalarBytes 8 id ++ encBytes T.ty pv ++ suf)
      pre.length = .ok (scalarBytes 8 id, pre.length + 8) := by
    have := loadBytes_ok pre (scalarBytes 8 id) (encBytes T.ty pv ++ suf)
    simp only [scalarBytes_length] at this
    simpa [List.append_assoc] using this
  have hidv : bytesToScalar (scalarBytes 8 id) = id := by
    rw [bytesToScalar_scalarBytes,
      show (2 : Nat) ^ (8 * 8) = 2 ^ 64 by norm_num]
    exact Nat.mod_eq_of_lt hid
  have hload : loadVal T.ty (defaultVal T.ty)
      (pre ++ scalarBytes 8 id ++ encBytes T.ty pv ++ suf) (pre.length + 8)
      = .ok (pv, pre.length + (8 + (encBytes T.ty pv).length)) := by
    have := loadVal_enc T.ty pv (pre ++ scalarBytes 8 id) suf hwf
    simp only [List.append_assoc, List.length_append, scalarBytes_length,
      Nat.add_assoc] at this ⊢
    exact this
  unfold loadPtrPoly registryLoad
  simp only [hb, hidv, hlk, hload]
  rw [if_neg (fun h => h.elim hne hnb)]

/-- Closed-instance witness for `c10_polymorphic_type_mismatch`. -/
theorem c10_polymorphic_type_mismatch_witness :
    (5 : Nat) < 2 ^ 64 ∧
      loadPtrPoly 2 ⟨[(5, ⟨1, [], .scalar 1⟩)]⟩ .none
          ([] ++ scalarBytes 8 5 ++ encBytes (.scalar 1) (.vnum 9) ++ [])
          ([] : List Nat).length
        = .error (.polymorphicTypeMismatch,
            ([] : List Nat).length + (8 + (encBytes (.scalar 1) (.vnum 9)).length),
            .none) :=
  ⟨by decide,
    c10_polymorphic_type_mismatch ⟨[(5, ⟨1, [], .scalar 1⟩)]⟩ ⟨1, [], .scalar 1⟩ 5 2
      .none [] [] (.vnum 9) (by decide) rfl (by decide) (by decide) (by decide)⟩

/-! ## The compile-time type-tag hasher `make_id`

A faithful translation of the `constexpr` SHA-1 of `serializer.h`.  The
input is the name's byte list (the C++ takes a `char[size]` whose last
element is the terminating null, so the hashed message is the first
`size - 1` bytes).  The C++ integer conversions appear as explicit
`% 2 ^ w` truncations. -/

def swap_byte_order8 (v : Nat) : Nat := v

def swap_byte_order16 (v : Nat) : Nat :=
  ((swap_byte_order8 (v % 256)) <<< 8) ||| swap_byte_order8 ((v >>> 8) % 256)

def swap_byte_order32 (v : Nat) : Nat :=
  ((swap_byte_order16 (v % 65536)) <<< 16) ||| swap_byte_order16 ((v >>> 16) % 65536)

def swap_byte_order64 (v : Nat) : Nat :=
  ((swap_byte_order32 (v % 4294967296)) <<< 32) ||| swap_byte_order32 ((v >>> 32) % 4294967296)

/-- `detail::rotate_left` instantiated at `std::uint32_t` (the left shift
wraps modulo `2^32`). -/
def rotate_left32 (number count : Nat) : Nat :=
  ((number <<< count) % 4294967296) ||| (number >>> (32 - count))

/-- `(((size + sizeof(std::uint64_t)) + 63) / 64) * 64` with
`size = n + 1`. -/
def aligned_message_size (n : Nat) : Nat := (n + 1 + 8 + 63) / 64 * 64

/-- `preprocessed_message[k] |= x` (an out-of-bounds index leaves the list
unchanged; `make_id` only uses in-bounds indices). -/
def msgOrAt (msg : List Nat) (k x : Nat) : List Nat :=
  msg.set k (msg.getD k 0 ||| x)

/-- The loop filling the name's bytes into the word array:
`preprocessed_message[i / 4] |= swap_byte_order(uint32(name[i]) << ((3 - i % 4) * 8))`. -/
def fillMessage : List Nat → Nat → List Nat → List Nat
  | [], _, msg => msg
  | c :: cs, i, msg =>
    fillMessage cs (i + 1)
      (msgOrAt msg (i / 4)
        (swap_byte_order32 (((c % 4294967296) <<< ((3 - i % 4) * 8)) % 4294967296)))

/-- The fully preprocessed message: data bytes, the `0x80` terminator, and
the big-endian 64-bit bit length in the last two words. -/
def preprocessedMessage (name : List Nat) : List Nat :=
  let n := name.length
  let wcount := aligned_message_size n / 4
  let m1 := fillMessage name 0 (List.replicate wcount 0)
  let m2 := msgOrAt m1 (n / 4)
    (swap_byte_order32 ((128 <<< ((3 - n % 4) * 8)) % 4294967296))
  let m3 := m2.set (wcount - 2)
    (swap_byte_order32 (((n * 8 % 18446744073709551616) >>> 32) % 4294967296))
  m3.set (wcount - 1) (swap_byte_order32 (n * 8 % 18446744073709551616 % 4294967296))

/-- One step of the source's message-schedule extension:
`w[j] = swap(rol(swap(w[j-3] ^ w[j-8] ^ w[j-14] ^ w[j-16]), 1))`. -/
def extendOne (w : List Nat) : List Nat :=
  w ++ [swap_byte_order32 (rotate_left32 (swap_byte_order32
    ((w.getD (w.length - 3) 0) ^^^ (w.getD (w.length - 8) 0) ^^^
      (w.getD (w.length - 14) 0) ^^^ (w.getD (w.length - 16) 0))) 1)]

def extendW : List Nat → Nat → List Nat
  | w, 0 => w
  | w, k + 1 => extendW (extendOne w) k

/-- The round function `f` and round constant `k` of the main loop. -/
def sha1_f (j b c d : Nat) : Nat :=
  if j ≤ 19 then (b &&& c) ||| ((b ^^^ 4294967295) &&& d)
  else if j ≤ 39 then b ^^^ c ^^^ d
  else if j ≤ 59 then (b &&& c) ||| (b &&& d) ||| (c &&& d)
  else b ^^^ c ^^^ d

def sha1_k (j : Nat) : Nat :=
  if j ≤ 19 then 0x5A827999
  else if j ≤ 39 then 0x6ED9EBA1
  else if j ≤ 59 then 0x8F1BBCDC
  else 0xCA62C1D6

/-- One iteration of the source's main loop (note the byte swap on `w[j]`). -/
def codeRound (w : List Nat) (st : Nat × Nat × Nat × Nat × Nat) (j : Nat) :
    Nat × Nat × Nat × Nat × Nat :=
  match st with
  | (a, b, c, d, e) =>
    ((rotate_left32 a 5 + sha1_f j b c d + e + sha1_k j
        + swap_byte_order32 (w.getD j 0)) % 4294967296,
      a, rotate_left32 b 30, c, d)

/-- One 512-bit chunk: schedule extension, 80 rounds, wrap-around adds. -/
def processChunk (h : Nat × Nat × Nat × Nat × Nat) (chunk : List Nat) :
    Nat × Nat × Nat × Nat × Nat :=
  match (List.range 80).foldl (codeRound (extendW chunk 64)) h, h with
  | (a, b, c, d, e), (h0, h1, h2, h3, h4) =>
    ((h0 + a) % 4294967296, (h1 + b) % 4294967296, (h2 + c) % 4294967296,
      (h3 + d) % 4294967296, (h4 + e) % 4294967296)

def processChunks : (Nat × Nat × Nat × Nat × Nat) → List Nat →
    Nat × Nat × Nat × Nat × Nat
  | h, w0 :: w1 :: w2 :: w3 :: w4 :: w5 :: w6 :: w7 :: w8 :: w9 :: w10 :: w11
      :: w12 :: w13 :: w14 :: w15 :: rest =>
    processChunks (processChunk h
      [w0, w1, w2, w3, w4, w5, w6, w7, w8, w9, w10, w11, w12, w13, w14, w15]) rest
  | h, _ => h

/-- `zpp::serializer::make_id`, on the name's bytes (no trailing null). -/
def make_id (name : List Nat) : Nat :=
  match processChunks (0x67452301, 0xEFCDAB89, 0x98BADCFE, 0x10325476, 0xC3D2E1F0)
      (preprocessedMessage name) with
  | (h0, h1, _, _, _) => swap_byte_order64 ((h0 <<< 32) ||| h1)

/-! ### Reference SHA-1

Modelled from the spec: "run the standard SHA-1 message schedule and
compression over the name's bytes (no trailing null); take the first 8
bytes of the 20-byte digest" — the textbook byte-oriented SHA-1 (FIPS
180-1): pad with `0x80`, zeros, and the big-endian 64-bit message bit
length; split into big-endian 32-bit words; extend with
`W[j] = rol1(W[j-3] xor W[j-8] xor W[j-14] xor W[j-16])`; run the standard
80 rounds; output the five state words as big-endian bytes.  The
`sha1_abc` conjunct of the claim theorem checks this definition against
the published SHA-1 test vector for "abc". -/

def be32Bytes (x : Nat) : List Nat :=
  [(x >>> 24) % 256, (x >>> 16) % 256, (x >>> 8) % 256, x % 256]

def be64Bytes (x : Nat) : List Nat :=
  [(x >>> 56) % 256, (x >>> 48) % 256, (x >>> 40) % 256, (x >>> 32) % 256,
    (x >>> 24) % 256, (x >>> 16) % 256, (x >>> 8) % 256, x % 256]

def sha1pad (msg : List Nat) : List Nat :=
  msg ++ [128] ++ List.replicate ((64 - (msg.length + 9) % 64) % 64) 0
    ++ be64Bytes (msg.length * 8)

def beWord32 (b0 b1 b2 b3 : Nat) : Nat :=
  ((b0 % 256) <<< 24) ||| ((b1 % 256) <<< 16) ||| ((b2 % 256) <<< 8) ||| (b3 % 256)

def toWordsBE : List Nat → List Nat
  | b0 :: b1 :: b2 :: b3 :: rest => beWord32 b0 b1 b2 b3 :: toWordsBE rest
  | _ => []

def sha1ExtendOne (w : List Nat) : List Nat :=
  w ++ [rotate_left32
    ((w.getD (w.length - 3) 0) ^^^ (w.getD (w.length - 8) 0) ^^^
      (w.getD (w.length - 14) 0) ^^^ (w.getD (w.length - 16) 0)) 1]

def sha1ExtendW : List Nat → Nat → List Nat
  | w, 0 => w
  | w, k + 1 => sha1ExtendW (sha1ExtendOne w) k

def sha1Round (w : List Nat) (st : Nat × Nat × Nat × Nat × Nat) (j : Nat) :
    Nat × Nat × Nat × Nat × Nat :=
  match st with
  | (a, b, c, d, e) =>
    ((rotate_left32 a 5 + sha1_f j b c d + e + sha1_k j + w.getD j 0) % 4294967296,
      a, rotate_left32 b 30, c, d)

def sha1ProcessChunk (h : Nat × Nat × Nat × Nat × Nat) (chunk : List Nat) :
    Nat × Nat × Nat × Nat × Nat :=
  match (List.range 80).foldl (sha1Round (sha1ExtendW chunk 64)) h, h with
  | (a, b, c, d, e), (h0, h1, h2, h3, h4) =>
    ((h0 + a) % 4294967296, (h1 + b) % 4294967296, (h2 + c) % 4294967296,
      (h3 + d) % 4294967296, (h4 + e) % 4294967296)

def sha1ProcessChunks : (Nat × Nat × Nat × Nat × Nat) → List Nat →
    Nat × Nat × Nat × Nat × Nat
  | h, w0 :: w1 :: w2 :: w3 :: w4 :: w5 :: w6 :: w7 :: w8 :: w9 :: w10 :: w11
      :: w12 :: w13 :: w14 :: w15 :: rest =>
    sha1ProcessChunks (sha1ProcessChunk h
      [w0, w1, w2, w3, w4, w5, w6, w7, w8, w9, w10, w11, w12, w13, w14, w15]) rest
  | h, _ => h

/-- The 20-byte SHA-1 digest of a byte list. -/
def sha1 (msg : List Nat) : List Nat :=
  match sha1ProcessChunks (0x67452301, 0xEFCDAB89, 0x98BADCFE, 0x10325476, 0xC3D2E1F0)
      (toWordsBE (sha1pad msg)) with
  | (h0, h1, h2, h3, h4) =>
    be32Bytes h0 ++ be32Bytes h1 ++ be32Bytes h2 ++ be32Bytes h3 ++ be32Bytes h4

/-! ### Bit-level toolkit for the SHA-1 equivalence proof -/

theorem lor_mod_two_pow (x y k : Nat) :
    (x ||| y) % 2 ^ k = (x % 2 ^ k) ||| (y % 2 ^ k) := by
  apply Nat.eq_of_testBit_eq
  intro i
  simp [Nat.testBit_mod_two_pow, Nat.testBit_lor, Bool.and_or_distrib_left]

theorem xor_mod_two_pow (x y k : Nat) :
    (x ^^^ y) % 2 ^ k = (x % 2 ^ k) ^^^ (y % 2 ^ k) := by
  apply Nat.eq_of_testBit_eq
  intro i
  simp [Nat.testBit_mod_two_pow, Nat.testBit_xor, Bool.and_xor_distrib_left]

theorem lor_shiftRight (x y k : Nat) :
    (x ||| y) >>> k = (x >>> k) ||| (y >>> k) := by
  apply Nat.eq_of_testBit_eq
  intro i
  simp [Nat.testBit_shiftRight, Nat.testBit_lor]

theorem xor_shiftRight (x y k : Nat) :
    (x ^^^ y) >>> k = (x >>> k) ^^^ (y >>> k) := by
  apply Nat.eq_of_testBit_eq
  intro i
  simp [Nat.testBit_shiftRight, Nat.testBit_xor]

theorem lor_shiftLeft (x y k : Nat) :
    (x ||| y) <<< k = (x <<< k) ||| (y <<< k) := by
  apply Nat.eq_of_testBit_eq
  intro i
  simp [Nat.testBit_shiftLeft, Nat.testBit_lor, Bool.and_or_distrib_left]

theorem xor_shiftLeft (x y k : Nat) :
    (x ^^^ y) <<< k = (x <<< k) ^^^ (y <<< k) := by
  apply Nat.eq_of_testBit_eq
  intro i
  simp [Nat.testBit_shiftLeft, Nat.testBit_xor, Bool.and_xor_distrib_left]

theorem lor_xor_disjoint {k : Nat} (a b c d : Nat) (ha : a % 2 ^ k = 0)
    (hb : b % 2 ^ k = 0) (hc : c < 2 ^ k) (hd : d < 2 ^ k) :
    (a ||| c) ^^^ (b ||| d) = (a ^^^ b) ||| (c ^^^ d) := by
  apply Nat.eq_of_testBit_eq
  intro i
  by_cases hik : i < k
  · have hai : a.testBit i = false := by
      have := congrArg (fun z => z.testBit i) ha
      simpa [Nat.testBit_mod_two_pow, hik] using this
    have hbi : b.testBit i = false := by
      have := congrArg (fun z => z.testBit i) hb
      simpa [Nat.testBit_mod_two_pow, hik] using this
    simp [Nat.testBit_lor, Nat.testBit_xor, hai, hbi]
  · have hci : c.testBit i = false :=
      Nat.testBit_lt_two_pow
        (lt_of_lt_of_le hc (Nat.pow_le_pow_right (by norm_num) (le_of_not_lt hik)))
    have hdi : d.testBit i = false :=
      Nat.testBit_lt_two_pow
        (lt_of_lt_of_le hd (Nat.pow_le_pow_right (by norm_num) (le_of_not_lt hik)))
    simp [Nat.testBit_lor, Nat.testBit_xor, hci, hdi]

theorem lor_lor_mix (a b c d : Nat) :
    (a ||| c) ||| (b ||| d) = (a ||| b) ||| (c ||| d) := by
  apply Nat.eq_of_testBit_eq
  intro i
  simp [Nat.testBit_lor, Bool.or_assoc, Bool.or_comm, Bool.or_left_comm]

theorem shl_or_eq (a b k : Nat) (hb : b < 2 ^ k) :
    (a <<< k) ||| b = 2 ^ k * a + b := by
  rw [Nat.shiftLeft_eq, Nat.mul_comm, ← Nat.mul_add_lt_is_or hb]

theorem shl_mod_self (a k : Nat) : (a <<< k) % 2 ^ k = 0 := by
  rw [Nat.shiftLeft_eq]
  exact Nat.mul_mod_left a (2 ^ k)

theorem mod256_lt (x : Nat) : x % 256 < 2 ^ 8 :=
  lt_of_lt_of_le (Nat.mod_lt _ (by norm_num)) (by norm_num)

theorem sum_div_extract (m a b : Nat) (hm : 0 < m) (hb : b < m) :
    (m * a + b) / m = a := by
  rw [Nat.mul_add_div hm, Nat.div_eq_of_lt hb, Nat.add_zero]

theorem sum_mod_extract (m a b : Nat) (hb : b < m) : (m * a + b) % m = b := by
  rw [Nat.mul_add_mod]
  exact Nat.mod_eq_of_lt hb

theorem mod65536_lt (x : Nat) : x % 65536 < 2 ^ 16 :=
  lt_of_lt_of_le (Nat.mod_lt _ (by norm_num)) (by norm_num)

theorem xor_mod256 (x y : Nat) : (x ^^^ y) % 256 = (x % 256) ^^^ (y % 256) := by
  have h := xor_mod_two_pow x y 8
  norm_num at h
  exact h

theorem xor_mod65536 (x y : Nat) :
    (x ^^^ y) % 65536 = (x % 65536) ^^^ (y % 65536) := by
  have h := xor_mod_two_pow x y 16
  norm_num at h
  exact h

theorem lor_mod256 (x y : Nat) : (x ||| y) % 256 = (x % 256) ||| (y % 256) := by
  have h := lor_mod_two_pow x y 8
  norm_num at h
  exact h

theorem lor_mod65536 (x y : Nat) :
    (x ||| y) % 65536 = (x % 65536) ||| (y % 65536) := by
  have h := lor_mod_two_pow x y 16
  norm_num at h
  exact h

/-! ### Closed arithmetic forms of the byte swaps -/

theorem swap16_eq (v : Nat) :
    swap_byte_order16 v = 256 * (v % 256) + v / 256 % 256 := by
  show ((v % 256) <<< 8) ||| ((v >>> 8) % 256) = _
  rw [Nat.shiftRight_eq_div_pow, shl_or_eq _ _ 8 (mod256_lt _)]
  norm_num

theorem swap16_lt (v : Nat) : swap_byte_order16 v < 2 ^ 16 := by
  rw [swap16_eq]
  have h1 : v % 256 < 256 := Nat.mod_lt _ (by norm_num)
  have h2 : v / 256 % 256 < 256 := Nat.mod_lt _ (by norm_num)
  norm_num
  omega

theorem swap32_eq (v : Nat) :
    swap_byte_order32 v =
      16777216 * (v % 256) + 65536 * (v / 256 % 256)
        + 256 * (v / 65536 % 256) + v / 16777216 % 256 := by
  show ((swap_byte_order16 (v % 65536)) <<< 16)
      ||| swap_byte_order16 ((v >>> 16) % 65536) = _
  rw [Nat.shiftRight_eq_div_pow, shl_or_eq _ _ 16 (swap16_lt _), swap16_eq, swap16_eq]
  norm_num
  omega

theorem swap32_lt (v : Nat) : swap_byte_order32 v < 2 ^ 32 := by
  rw [swap32_eq]
  have h1 : v % 256 < 256 := Nat.mod_lt _ (by norm_num)
  have h2 : v / 256 % 256 < 256 := Nat.mod_lt _ (by norm_num)
  have h3 : v / 65536 % 256 < 256 := Nat.mod_lt _ (by norm_num)
  have h4 : v / 16777216 % 256 < 256 := Nat.mod_lt _ (by norm_num)
  norm_num
  omega

theorem swap32_swap32 (v : Nat) (hv : v < 4294967296) :
    swap_byte_order32 (swap_byte_order32 v) = v := by
  rw [swap32_eq, swap32_eq]
  have h1 : v % 256 < 256 := Nat.mod_lt _ (by norm_num)
  have h2 : v / 256 % 256 < 256 := Nat.mod_lt _ (by norm_num)
  have h3 : v / 65536 % 256 < 256 := Nat.mod_lt _ (by norm_num)
  have h4 : v / 16777216 % 256 < 256 := Nat.mod_lt _ (by norm_num)
  have hv4 : v = v % 256 + 256 * (v / 256 % 256) + 65536 * (v / 65536 % 256)
      + 16777216 * (v / 16777216 % 256) := by omega
  generalize v % 256 = A at *
  generalize v / 256 % 256 = B at *
  generalize v / 65536 % 256 = C at *
  generalize v / 16777216 % 256 = D at *
  have e1 : (16777216 * A + 65536 * B + 256 * C + D) % 256 = D := by
    rw [show 16777216 * A + 65536 * B + 256 * C + D
        = 256 * (65536 * A + 256 * B + C) + D by ring]
    exact sum_mod_extract _ _ _ h4
  have e2 : (16777216 * A + 65536 * B + 256 * C + D) / 256 % 256 = C := by
    rw [show 16777216 * A + 65536 * B + 256 * C + D
        = 256 * (65536 * A + 256 * B + C) + D by ring,
      sum_div_extract _ _ _ (by norm_num) h4,
      show 65536 * A + 256 * B + C = 256 * (256 * A + B) + C by ring]
    exact sum_mod_extract _ _ _ h3
  have e3 : (16777216 * A + 65536 * B + 256 * C + D) / 65536 % 256 = B := by
    rw [show 16777216 * A + 65536 * B + 256 * C + D
        = 65536 * (256 * A + B) + (256 * C + D) by ring,
      sum_div_extract _ _ _ (by norm_num) (by omega),
      show 256 * A + B = 256 * A + B by rfl]
    exact sum_mod_extract _ _ _ h2
  have e4 : (16777216 * A + 65536 * B + 256 * C + D) / 16777216 % 256 = A := by
    rw [show 16777216 * A + 65536 * B + 256 * C + D
        = 16777216 * A + (65536 * B + 256 * C + D) by ring,
      sum_div_extract _ _ _ (by norm_num) (by omega)]
    exact Nat.mod_eq_of_lt h1
  rw [e1, e2, e3, e4]
  omega

theorem swap32_zero : swap_byte_order32 0 = 0 := rfl

/-! ### The swaps distribute over `|||` and `^^^` -/

theorem swap16_xor (x y : Nat) :
    swap_byte_order16 (x ^^^ y) = swap_byte_order16 x ^^^ swap_byte_order16 y := by
  show (((x ^^^ y) % 256) <<< 8) ||| (((x ^^^ y) >>> 8) % 256) = _
  rw [xor_mod256, xor_shiftRight, xor_mod256, xor_shiftLeft]
  exact (lor_xor_disjoint _ _ _ _ (shl_mod_self _ 8) (shl_mod_self _ 8)
    (mod256_lt _) (mod256_lt _)).symm

theorem swap16_lor (x y : Nat) :
    swap_byte_order16 (x ||| y) = swap_byte_order16 x ||| swap_byte_order16 y := by
  show (((x ||| y) % 256) <<< 8) ||| (((x ||| y) >>> 8) % 256) = _
  rw [lor_mod256, lor_shiftRight, lor_mod256, lor_shiftLeft]
  exact lor_lor_mix _ _ _ _

theorem swap32_xor (x y : Nat) :
    swap_byte_order32 (x ^^^ y) = swap_byte_order32 x ^^^ swap_byte_order32 y := by
  show ((swap_byte_order16 ((x ^^^ y) % 65536)) <<< 16)
      ||| swap_byte_order16 (((x ^^^ y) >>> 16) % 65536) = _
  rw [xor_mod65536, xor_shiftRight, xor_mod65536, swap16_xor, swap16_xor,
    xor_shiftLeft]
  exact (lor_xor_disjoint _ _ _ _ (shl_mod_self _ 16) (shl_mod_self _ 16)
    (swap16_lt _) (swap16_lt _)).symm

theorem swap32_lor (x y : Nat) :
    swap_byte_order32 (x ||| y) = swap_byte_order32 x ||| swap_byte_order32 y := by
  show ((swap_byte_order16 ((x ||| y) % 65536)) <<< 16)
      ||| swap_byte_order16 (((x ||| y) >>> 16) % 65536) = _
  rw [lor_mod65536, lor_shiftRight, lor_mod65536, swap16_lor, swap16_lor,
    lor_shiftLeft]
  exact lor_lor_mix _ _ _ _

/-! ### `List.getD` helpers -/

theorem getD_append_left {l1 l2 : List Nat} {j : Nat} (h : j < l1.length) :
    (l1 ++ l2).getD j 0 = l1.getD j 0 := by
  rw [List.getD_eq_getElem?_getD, List.getD_eq_getElem?_getD,
    List.getElem?_append, if_pos h]

theorem getD_append_right {l1 l2 : List Nat} {j : Nat} (h : l1.length ≤ j) :
    (l1 ++ l2).getD j 0 = l2.getD (j - l1.length) 0 := by
  rw [List.getD_eq_getElem?_getD, List.getD_eq_getElem?_getD,
    List.getElem?_append, if_neg (Nat.not_lt.mpr h)]

theorem getD_map_zero (f : Nat → Nat) (hf : f 0 = 0) (l : List Nat) (k : Nat) :
    (l.map f).getD k 0 = f (l.getD k 0) := by
  rw [List.getD_eq_getElem?_getD, List.getD_eq_getElem?_getD, List.getElem?_map]
  cases h : l[k]? with
  | none => simp [hf]
  | some a => simp

theorem getD_set_self {l : List Nat} {i a : Nat} (h : i < l.length) :
    (l.set i a).getD i 0 = a := by
  rw [List.getD_eq_getElem?_getD, List.getElem?_set, if_pos rfl, if_pos h]
  rfl

theorem getD_set_ne {l : List Nat} {i j a : Nat} (h : i ≠ j) :
    (l.set i a).getD j 0 = l.getD j 0 := by
  rw [List.getD_eq_getElem?_getD, List.getElem?_set, if_neg h,
    List.getD_eq_getElem?_getD]

theorem getD_replicate_zero (n k : Nat) : (List.replicate n 0).getD k 0 = 0 := by
  rw [List.getD_eq_getElem?_getD, List.getElem?_replicate]
  split <;> rfl

theorem getD_eq_zero_of_le {l : List Nat} {k : Nat} (h : l.length ≤ k) :
    l.getD k 0 = 0 := by
  rw [List.getD_eq_getElem?_getD, List.getElem?_eq_none h]
  rfl

theorem getD_cons4 {α : Type} (x a b c d : α) (l : List α) (n : Nat) :
    (a :: b :: c :: d :: l).getD (n + 4) x = l.getD n x := by
  rw [show n + 4 = n + 1 + 1 + 1 + 1 by ring]
  simp only [List.getD_cons_succ]

theorem getD_lt_of_forall {l : List Nat} {b : Nat} (h : ∀ x ∈ l, x < b)
    (hb : 0 < b) (k : Nat) : l.getD k 0 < b := by
  rw [List.getD_eq_getElem?_getD]
  cases hx : l[k]? with
  | none => simpa using hb
  | some a =>
    show a < b
    exact h a (List.getElem?_mem hx)

theorem list_eq_of_getD {l1 l2 : List Nat} (hlen : l1.length = l2.length)
    (h : ∀ k, l1.getD k 0 = l2.getD k 0) : l1 = l2 := by
  apply List.ext_getElem hlen
  intro n h1 h2
  have hn := h n
  rw [List.getD_eq_getElem?_getD, List.getD_eq_getElem?_getD,
    List.getElem?_eq_getElem h1, List.getElem?_eq_getElem h2] at hn
  simpa using hn

/-! ### The closing 64-bit fold of `make_id` -/

theorem beWord32_eq (b0 b1 b2 b3 : Nat) :
    beWord32 b0 b1 b2 b3 = 16777216 * (b0 % 256) + 65536 * (b1 % 256)
      + 256 * (b2 % 256) + (b3 % 256) := by
  have m0 : b0 % 256 < 256 := Nat.mod_lt _ (by norm_num)
  have m1 : b1 % 256 < 256 := Nat.mod_lt _ (by norm_num)
  have m2 : b2 % 256 < 256 := Nat.mod_lt _ (by norm_num)
  have m3 : b3 % 256 < 256 := Nat.mod_lt _ (by norm_num)
  have hcd : ((b2 % 256) <<< 8) ||| (b3 % 256) = 256 * (b2 % 256) + (b3 % 256) := by
    rw [shl_or_eq _ _ 8 (mod256_lt _)]
    norm_num
  have hbcd : ((b1 % 256) <<< 16) ||| (256 * (b2 % 256) + (b3 % 256))
      = 65536 * (b1 % 256) + (256 * (b2 % 256) + (b3 % 256)) := by
    rw [shl_or_eq _ _ 16 (by norm_num; omega)]
    norm_num
  have habcd : ((b0 % 256) <<< 24)
        ||| (65536 * (b1 % 256) + (256 * (b2 % 256) + (b3 % 256)))
      = 16777216 * (b0 % 256) + (65536 * (b1 % 256)
        + (256 * (b2 % 256) + (b3 % 256))) := by
    rw [shl_or_eq _ _ 24 (by norm_num; omega)]
    norm_num
  show (((b0 % 256) <<< 24) ||| ((b1 % 256) <<< 16) ||| ((b2 % 256) <<< 8)
      ||| (b3 % 256)) = _
  rw [Nat.lor_assoc, Nat.lor_assoc, hcd, hbcd, habcd]
  ring

theorem beWord32_lt (b0 b1 b2 b3 : Nat) : beWord32 b0 b1 b2 b3 < 4294967296 := by
  rw [beWord32_eq]
  have m0 : b0 % 256 < 256 := Nat.mod_lt _ (by norm_num)
  have m1 : b1 % 256 < 256 := Nat.mod_lt _ (by norm_num)
  have m2 : b2 % 256 < 256 := Nat.mod_lt _ (by norm_num)
  have m3 : b3 % 256 < 256 := Nat.mod_lt _ (by norm_num)
  omega

theorem make_id_fold (h0 h1 : Nat) (H0 : h0 < 4294967296) (H1 : h1 < 4294967296) :
    swap_byte_order64 ((h0 <<< 32) ||| h1)
      = bytesToScalar (be32Bytes h0 ++ be32Bytes h1) := by
  have hX : (h0 <<< 32) ||| h1 = 2 ^ 32 * h0 + h1 :=
    shl_or_eq h0 h1 32 (by norm_num; omega)
  show (swap_byte_order32 (((h0 <<< 32) ||| h1) % 4294967296)) <<< 32
      ||| swap_byte_order32 ((((h0 <<< 32) ||| h1) >>> 32) % 4294967296) = _
  rw [hX, Nat.shiftRight_eq_div_pow]
  have e1 : (2 ^ 32 * h0 + h1) % 4294967296 = h1 := by
    norm_num
    exact sum_mod_extract _ _ _ H1
  have e2 : (2 ^ 32 * h0 + h1) / 2 ^ 32 % 4294967296 = h0 := by
    norm_num
    rw [sum_div_extract _ _ _ (by norm_num) H1]
    exact Nat.mod_eq_of_lt H0
  rw [e1, e2, shl_or_eq _ _ 32 (swap32_lt _), swap32_eq, swap32_eq]
  simp only [be32Bytes, bytesToScalar, List.cons_append, List.nil_append,
    Nat.shiftRight_eq_div_pow]
  norm_num
  omega

/-! ### Closed form of the message-fill loop -/

/-- The total OR-contribution of the byte list `cs`, whose first byte sits at
message-byte index `i0`, to message word `k`. -/
def wordContrib : List Nat → Nat → Nat → Nat
  | [], _, _ => 0
  | c :: cs, i, k =>
    (if i / 4 = k
      then swap_byte_order32 (((c % 4294967296) <<< ((3 - i % 4) * 8)) % 4294967296)
      else 0) ||| wordContrib cs (i + 1) k

theorem msgOrAt_length (msg : List Nat) (k x : Nat) :
    (msgOrAt msg k x).length = msg.length := List.length_set _ _ _

theorem msgOrAt_getD_self {msg : List Nat} {k x : Nat} (h : k < msg.length) :
    (msgOrAt msg k x).getD k 0 = msg.getD k 0 ||| x := getD_set_self h

theorem msgOrAt_getD_ne {msg : List Nat} {k x j : Nat} (h : k ≠ j) :
    (msgOrAt msg k x).getD j 0 = msg.getD j 0 := getD_set_ne h

theorem fillMessage_length (cs : List Nat) : ∀ (i : Nat) (msg : List Nat),
    (fillMessage cs i msg).length = msg.length := by
  induction cs with
  | nil => intro i msg; rfl
  | cons c cs ih =>
    intro i msg
    show (fillMessage cs (i + 1) (msgOrAt msg (i / 4) _)).length = _
    rw [ih, msgOrAt_length]

theorem fillMessage_getD (cs : List Nat) : ∀ (i0 : Nat) (msg : List Nat) (k : Nat),
    (∀ j, j < cs.length → (i0 + j) / 4 < msg.length) →
    (fillMessage cs i0 msg).getD k 0 = msg.getD k 0 ||| wordContrib cs i0 k := by
  induction cs with
  | nil =>
    intro i0 msg k _
    show msg.getD k 0 = msg.getD k 0 ||| 0
    rw [Nat.or_zero]
  | cons c cs ih =>
    intro i0 msg k hbound
    have hhead : i0 / 4 < msg.length := by
      have := hbound 0 (by simp)
      simpa using this
    show (fillMessage cs (i0 + 1) (msgOrAt msg (i0 / 4) _)).getD k 0 = _
    rw [ih (i0 + 1) _ k (by
      intro j hj
      rw [msgOrAt_length]
      have := hbound (j + 1) (by simpa using Nat.succ_lt_succ hj)
      rwa [show i0 + (j + 1) = i0 + 1 + j by ring] at this)]
    show _ = msg.getD k 0
      ||| ((if i0 / 4 = k then _ else 0) ||| wordContrib cs (i0 + 1) k)
    by_cases hk : i0 / 4 = k
    · rw [if_pos hk, ← hk, msgOrAt_getD_self hhead, Nat.lor_assoc]
    · rw [if_neg hk, msgOrAt_getD_ne hk, Nat.zero_or]

theorem wordContrib_zero (cs : List Nat) : ∀ (i0 k : Nat),
    (∀ j, j < cs.length → (i0 + j) / 4 ≠ k) → wordContrib cs i0 k = 0 := by
  induction cs with
  | nil => intro i0 k _; rfl
  | cons c cs ih =>
    intro i0 k h
    show (if i0 / 4 = k then _ else 0) ||| wordContrib cs (i0 + 1) k = 0
    rw [if_neg (by simpa using h 0 (by simp)), Nat.zero_or]
    apply ih
    intro j hj
    have := h (j + 1) (by simpa using Nat.succ_lt_succ hj)
    rwa [show i0 + (j + 1) = i0 + 1 + j by ring] at this

theorem wordContrib_shift (cs : List Nat) : ∀ (i0 k : Nat),
    wordContrib cs (i0 + 4) (k + 1) = wordContrib cs i0 k := by
  induction cs with
  | nil => intro i0 k; rfl
  | cons c cs ih =>
    intro i0 k
    show (if (i0 + 4) / 4 = k + 1 then
        swap_byte_order32 (((c % 4294967296) <<< ((3 - (i0 + 4) % 4) * 8))
          % 4294967296) else 0) ||| wordContrib cs (i0 + 4 + 1) (k + 1)
      = (if i0 / 4 = k then
        swap_byte_order32 (((c % 4294967296) <<< ((3 - i0 % 4) * 8))
          % 4294967296) else 0) ||| wordContrib cs (i0 + 1) k
    rw [Nat.add_mod_right, show i0 + 4 + 1 = i0 + 1 + 4 by ring, ih]
    congr 1
    by_cases h : i0 / 4 = k
    · rw [if_pos (by omega), if_pos h]
    · rw [if_neg (by omega), if_neg h]

/-! ### `toWordsBE` basics -/

theorem toWordsBE_nil : toWordsBE [] = [] := rfl

theorem toWordsBE_cons4 (b0 b1 b2 b3 : Nat) (rest : List Nat) :
    toWordsBE (b0 :: b1 :: b2 :: b3 :: rest)
      = beWord32 b0 b1 b2 b3 :: toWordsBE rest := rfl

theorem toWordsBE_length_aux : ∀ (n : Nat) (l : List Nat), l.length ≤ n →
    (toWordsBE l).length = l.length / 4 := by
  intro n
  induction n with
  | zero =>
    intro l h
    match l with
    | [] => rfl
    | x :: xs => simp at h
  | succ n ih =>
    intro l h
    match l with
    | [] => rfl
    | [b0] => simp [show toWordsBE [b0] = [] from rfl]
    | [b0, b1] => simp [show toWordsBE [b0, b1] = [] from rfl]
    | [b0, b1, b2] => simp [show toWordsBE [b0, b1, b2] = [] from rfl]
    | b0 :: b1 :: b2 :: b3 :: rest =>
      rw [toWordsBE_cons4]
      show (toWordsBE rest).length + 1 = _
      rw [ih rest (by simp at h ⊢; omega)]
      simp only [List.length_cons]
      omega

theorem toWordsBE_length (l : List Nat) : (toWordsBE l).length = l.length / 4 :=
  toWordsBE_length_aux l.length l (le_refl _)

theorem toWordsBE_getD (k : Nat) : ∀ (l : List Nat), 4 * (k + 1) ≤ l.length →
    (toWordsBE l).getD k 0
      = beWord32 (l.getD (4 * k) 0) (l.getD (4 * k + 1) 0)
          (l.getD (4 * k + 2) 0) (l.getD (4 * k + 3) 0) := by
  induction k with
  | zero =>
    intro l h
    match l with
    | [] => simp at h
    | [b0] => simp at h
    | [b0, b1] => simp at h
    | [b0, b1, b2] => simp at h
    | b0 :: b1 :: b2 :: b3 :: rest =>
      rw [toWordsBE_cons4]
      norm_num
  | succ k ih =>
    intro l h
    match l with
    | [] => simp at h
    | [b0] => simp at h; omega
    | [b0, b1] => simp at h; omega
    | [b0, b1, b2] => simp at h; omega
    | b0 :: b1 :: b2 :: b3 :: rest =>
      rw [toWordsBE_cons4]
      show (toWordsBE rest).getD k 0 = _
      rw [ih rest (by simp at h ⊢; omega)]
      rw [show 4 * (k + 1) = 4 * k + 4 by ring,
        show 4 * k + 4 + 1 = 4 * k + 1 + 4 by ring,
        show 4 * k + 4 + 2 = 4 * k + 2 + 4 by ring,
        show 4 * k + 4 + 3 = 4 * k + 3 + 4 by ring,
        getD_cons4, getD_cons4, getD_cons4, getD_cons4]

theorem toWordsBE_mem_lt_aux : ∀ (n : Nat) (l : List Nat), l.length ≤ n →
    ∀ x ∈ toWordsBE l, x < 4294967296 := by
  intro n
  induction n with
  | zero =>
    intro l h x hx
    match l with
    | [] => simp [toWordsBE_nil] at hx
    | y :: ys => simp at h
  | succ n ih =>
    intro l h x hx
    match l with
    | [] => simp [toWordsBE_nil] at hx
    | [b0] => simp [show toWordsBE [b0] = [] from rfl] at hx
    | [b0, b1] => simp [show toWordsBE [b0, b1] = [] from rfl] at hx
    | [b0, b1, b2] => simp [show toWordsBE [b0, b1, b2] = [] from rfl] at hx
    | b0 :: b1 :: b2 :: b3 :: rest =>
      rw [toWordsBE_cons4] at hx
      rcases List.mem_cons.mp hx with he | hm
      · rw [he]; exact beWord32_lt _ _ _ _
      · exact ih rest (by simp at h ⊢; omega) x hm

theorem toWordsBE_mem_lt (l : List Nat) : ∀ x ∈ toWordsBE l, x < 4294967296 :=
  toWordsBE_mem_lt_aux l.length l (le_refl _)

theorem byte_shift_mod (c sh : Nat) (hc : c < 256) (hsh : sh ≤ 24) :
    ((c % 4294967296) <<< sh) % 4294967296 = c <<< sh := by
  have h1 : c % 4294967296 = c := Nat.mod_eq_of_lt (by omega)
  have h2 : c <<< sh < 4294967296 := by
    rw [Nat.shiftLeft_eq]
    have hp : (2:Nat) ^ sh ≤ 2 ^ 24 := Nat.pow_le_pow_right (by norm_num) hsh
    have hm : c * 2 ^ sh ≤ 255 * 2 ^ 24 := Nat.mul_le_mul (by omega) hp
    norm_num at hm
    omega
  rw [h1, Nat.mod_eq_of_lt h2]

/-- The contribution of a byte list starting at message offset 0 to word `k`
is the byte-swapped big-endian packing of its bytes `4k .. 4k+3` (with `0`
past the end). -/
theorem wordContrib_word : ∀ (k : Nat) (bs : List Nat), (∀ c ∈ bs, c < 256) →
    wordContrib bs 0 k
      = swap_byte_order32 (beWord32 (bs.getD (4 * k) 0) (bs.getD (4 * k + 1) 0)
          (bs.getD (4 * k + 2) 0) (bs.getD (4 * k + 3) 0)) := by
  intro k
  induction k with
  | zero =>
    intro bs hb
    match bs with
    | [] =>
      show (0 : Nat) = swap_byte_order32 (beWord32 0 0 0 0)
      rfl
    | [b0] =>
      have e0 : b0 % 256 = b0 := Nat.mod_eq_of_lt (hb b0 (by simp))
      show (if 0 / 4 = 0 then
          swap_byte_order32 (((b0 % 4294967296) <<< ((3 - 0 % 4) * 8))
            % 4294967296) else 0) ||| 0
        = swap_byte_order32 (beWord32 b0 0 0 0)
      rw [if_pos rfl, Nat.or_zero,
        show (3 - 0 % 4) * 8 = 24 by norm_num,
        byte_shift_mod _ _ (hb b0 (by simp)) (by norm_num)]
      show _ = swap_byte_order32
        (((b0 % 256) <<< 24) ||| ((0 % 256) <<< 16) ||| ((0 % 256) <<< 8)
          ||| (0 % 256))
      rw [e0]
      norm_num
    | [b0, b1] =>
      have e0 : b0 % 256 = b0 := Nat.mod_eq_of_lt (hb b0 (by simp))
      have e1 : b1 % 256 = b1 := Nat.mod_eq_of_lt (hb b1 (by simp))
      show (if 0 / 4 = 0 then
          swap_byte_order32 (((b0 % 4294967296) <<< ((3 - 0 % 4) * 8))
            % 4294967296) else 0)
        ||| ((if 1 / 4 = 0 then
          swap_byte_order32 (((b1 % 4294967296) <<< ((3 - 1 % 4) * 8))
            % 4294967296) else 0) ||| 0)
        = swap_byte_order32 (beWord32 b0 b1 0 0)
      rw [if_pos (by norm_num), if_pos (by norm_num), Nat.or_zero,
        show (3 - 0 % 4) * 8 = 24 by norm_num,
        show (3 - 1 % 4) * 8 = 16 by norm_num,
        byte_shift_mod _ _ (hb b0 (by simp)) (by norm_num),
        byte_shift_mod _ _ (hb b1 (by simp)) (by norm_num), ← swap32_lor]
      show _ = swap_byte_order32
        (((b0 % 256) <<< 24) ||| ((b1 % 256) <<< 16) ||| ((0 % 256) <<< 8)
          ||| (0 % 256))
      rw [e0, e1]
      norm_num
    | [b0, b1, b2] =>
      have e0 : b0 % 256 = b0 := Nat.mod_eq_of_lt (hb b0 (by simp))
      have e1 : b1 % 256 = b1 := Nat.mod_eq_of_lt (hb b1 (by simp))
      have e2 : b2 % 256 = b2 := Nat.mod_eq_of_lt (hb b2 (by simp))
      show (if 0 / 4 = 0 then
          swap_byte_order32 (((b0 % 4294967296) <<< ((3 - 0 % 4) * 8))
            % 4294967296) else 0)
        ||| ((if 1 / 4 = 0 then
          swap_byte_order32 (((b1 % 4294967296) <<< ((3 - 1 % 4) * 8))
            % 4294967296) else 0)
        ||| ((if 2 / 4 = 0 then
          swap_byte_order32 (((b2 % 4294967296) <<< ((3 - 2 % 4) * 8))
            % 4294967296) else 0) ||| 0))
        = swap_byte_order32 (beWord32 b0 b1 b2 0)
      rw [if_pos (by norm_num), if_pos (by norm_num), if_pos (by norm_num),
        Nat.or_zero,
        show (3 - 0 % 4) * 8 = 24 by norm_num,
        show (3 - 1 % 4) * 8 = 16 by norm_num,
        show (3 - 2 % 4) * 8 = 8 by norm_num,
        byte_shift_mod _ _ (hb b0 (by simp)) (by norm_num),
        byte_shift_mod _ _ (hb b1 (by simp)) (by norm_num),
        byte_shift_mod _ _ (hb b2 (by simp)) (by norm_num),
        ← swap32_lor, ← swap32_lor]
      show _ = swap_byte_order32
        (((b0 % 256) <<< 24) ||| ((b1 % 256) <<< 16) ||| ((b2 % 256) <<< 8)
          ||| (0 % 256))
      rw [e0, e1, e2]
      simp [Nat.lor_assoc]
    | b0 :: b1 :: b2 :: b3 :: rest =>
      have e0 : b0 % 256 = b0 := Nat.mod_eq_of_lt (hb b0 (by simp))
      have e1 : b1 % 256 = b1 := Nat.mod_eq_of_lt (hb b1 (by simp))
      have e2 : b2 % 256 = b2 := Nat.mod_eq_of_lt (hb b2 (by simp))
      have e3 : b3 % 256 = b3 := Nat.mod_eq_of_lt (hb b3 (by simp))
      have hrest : wordContrib rest 4 0 = 0 := by
        apply wordContrib_zero
        intro j hj
        omega
      show (if 0 / 4 = 0 then
          swap_byte_order32 (((b0 % 4294967296) <<< ((3 - 0 % 4) * 8))
            % 4294967296) else 0)
        ||| ((if 1 / 4 = 0 then
          swap_byte_order32 (((b1 % 4294967296) <<< ((3 - 1 % 4) * 8))
            % 4294967296) else 0)
        ||| ((if 2 / 4 = 0 then
          swap_byte_order32 (((b2 % 4294967296) <<< ((3 - 2 % 4) * 8))
            % 4294967296) else 0)
        ||| ((if 3 / 4 = 0 then
          swap_byte_order32 (((b3 % 4294967296) <<< ((3 - 3 % 4) * 8))
            % 4294967296) else 0) ||| wordContrib rest 4 0)))
        = swap_byte_order32 (beWord32 b0 b1 b2 b3)
      rw [hrest, if_pos (by norm_num), if_pos (by norm_num),
        if_pos (by norm_num), if_pos (by norm_num), Nat.or_zero,
        show (3 - 0 % 4) * 8 = 24 by norm_num,
        show (3 - 1 % 4) * 8 = 16 by norm_num,
        show (3 - 2 % 4) * 8 = 8 by norm_num,
        show (3 - 3 % 4) * 8 = 0 by norm_num,
        byte_shift_mod _ _ (hb b0 (by simp)) (by norm_num),
        byte_shift_mod _ _ (hb b1 (by simp)) (by norm_num),
        byte_shift_mod _ _ (hb b2 (by simp)) (by norm_num),
        byte_shift_mod _ _ (hb b3 (by simp)) (by norm_num),
        ← swap32_lor, ← swap32_lor, ← swap32_lor]
      show _ = swap_byte_order32
        (((b0 % 256) <<< 24) ||| ((b1 % 256) <<< 16) ||| ((b2 % 256) <<< 8)
          ||| (b3 % 256))
      rw [e0, e1, e2, e3]
      simp [Nat.lor_assoc]
  | succ k ih =>
    intro bs hb
    match bs with
    | [] =>
      show (0 : Nat) = swap_byte_order32 (beWord32 0 0 0 0)
      rfl
    | [b0] =>
      rw [wordContrib_zero _ _ _ (by intro j hj; simp at hj; omega)]
      rw [getD_eq_zero_of_le (by
          simp only [List.length_cons, List.length_nil]; omega),
        getD_eq_zero_of_le (by
          simp only [List.length_cons, List.length_nil]; omega),
        getD_eq_zero_of_le (by
          simp only [List.length_cons, List.length_nil]; omega),
        getD_eq_zero_of_le (by
          simp only [List.length_cons, List.length_nil]; omega)]
      rfl
    | [b0, b1] =>
      rw [wordContrib_zero _ _ _ (by intro j hj; simp at hj; omega)]
      rw [getD_eq_zero_of_le (by
          simp only [List.length_cons, List.length_nil]; omega),
        getD_eq_zero_of_le (by
          simp only [List.length_cons, List.length_nil]; omega),
        getD_eq_zero_of_le (by
          simp only [List.length_cons, List.length_nil]; omega),
        getD_eq_zero_of_le (by
          simp only [List.length_cons, List.length_nil]; omega)]
      rfl
    | [b0, b1, b2] =>
      rw [wordContrib_zero _ _ _ (by intro j hj; simp at hj; omega)]
      rw [getD_eq_zero_of_le (by
          simp only [List.length_cons, List.length_nil]; omega),
        getD_eq_zero_of_le (by
          simp only [List.length_cons, List.length_nil]; omega),
        getD_eq_zero_of_le (by
          simp only [List.length_cons, List.length_nil]; omega),
        getD_eq_zero_of_le (by
          simp only [List.length_cons, List.length_nil]; omega)]
      rfl
    | b0 :: b1 :: b2 :: b3 :: rest =>
      show (if 0 / 4 = k + 1 then
          swap_byte_order32 (((b0 % 4294967296) <<< ((3 - 0 % 4) * 8))
            % 4294967296) else 0)
        ||| ((if 1 / 4 = k + 1 then
          swap_byte_order32 (((b1 % 4294967296) <<< ((3 - 1 % 4) * 8))
            % 4294967296) else 0)
        ||| ((if 2 / 4 = k + 1 then
          swap_byte_order32 (((b2 % 4294967296) <<< ((3 - 2 % 4) * 8))
            % 4294967296) else 0)
        ||| ((if 3 / 4 = k + 1 then
          swap_byte_order32 (((b3 % 4294967296) <<< ((3 - 3 % 4) * 8))
            % 4294967296) else 0) ||| wordContrib rest 4 (k + 1))))
        = _
      rw [if_neg (by omega), if_neg (by omega), if_neg (by omega),
        if_neg (by omega), Nat.zero_or, Nat.zero_or, Nat.zero_or, Nat.zero_or]
      rw [show (4 : Nat) = 0 + 4 by norm_num, wordContrib_shift,
        ih rest (fun c hc => hb c (by simp [hc]))]
      rw [show 4 * (k + 1) = 4 * k + 4 by ring,
        show 4 * k + 4 + 1 = 4 * k + 1 + 4 by ring,
        show 4 * k + 4 + 2 = 4 * k + 2 + 4 by ring,
        show 4 * k + 4 + 3 = 4 * k + 3 + 4 by ring,
        getD_cons4, getD_cons4, getD_cons4, getD_cons4]

/-! ### Byte regions of the reference padding -/

theorem sha1pad_length (msg : List Nat) :
    (sha1pad msg).length = aligned_message_size msg.length := by
  show ((msg ++ [128]) ++ List.replicate ((64 - (msg.length + 9) % 64) % 64) 0
      ++ be64Bytes (msg.length * 8)).length = _
  simp only [List.length_append, List.length_cons, List.length_nil,
    List.length_replicate, be64Bytes, aligned_message_size]
  omega

theorem sha1pad_head_length (name : List Nat) :
    ((name ++ [128]) ++ List.replicate
        ((64 - (name.length + 9) % 64) % 64) 0).length
      = aligned_message_size name.length - 8 := by
  simp only [List.length_append, List.length_cons, List.length_nil,
    List.length_replicate, aligned_message_size]
  omega

theorem sha1pad_getD_data (name : List Nat) (j : Nat) (hj : j < name.length) :
    (sha1pad name).getD j 0 = name.getD j 0 := by
  have hb1 : j < ((name ++ [128]) ++ List.replicate
      ((64 - (name.length + 9) % 64) % 64) 0).length := by
    rw [sha1pad_head_length]
    have h9 : name.length + 9 ≤ aligned_message_size name.length := by
      unfold aligned_message_size; omega
    omega
  have hb2 : j < (name ++ [128]).length := by
    simp only [List.length_append, List.length_cons, List.length_nil]
    omega
  show (((name ++ [128]) ++ List.replicate _ 0) ++ be64Bytes _).getD j 0 = _
  rw [getD_append_left hb1, getD_append_left hb2, getD_append_left hj]

theorem sha1pad_getD_80 (name : List Nat) :
    (sha1pad name).getD name.length 0 = 128 := by
  have hb1 : name.length < ((name ++ [128]) ++ List.replicate
      ((64 - (name.length + 9) % 64) % 64) 0).length := by
    rw [sha1pad_head_length]
    have h9 : name.length + 9 ≤ aligned_message_size name.length := by
      unfold aligned_message_size; omega
    omega
  have hb2 : name.length < (name ++ [128]).length := by
    simp only [List.length_append, List.length_cons, List.length_nil]
    omega
  show (((name ++ [128]) ++ List.replicate _ 0) ++ be64Bytes _).getD
      name.length 0 = _
  rw [getD_append_left hb1, getD_append_left hb2,
    getD_append_right (le_refl _), Nat.sub_self]
  rfl

theorem sha1pad_getD_zero (name : List Nat) (j : Nat) (h1 : name.length < j)
    (h2 : j < aligned_message_size name.length - 8) :
    (sha1pad name).getD j 0 = 0 := by
  have hb1 : j < ((name ++ [128]) ++ List.replicate
      ((64 - (name.length + 9) % 64) % 64) 0).length := by
    rw [sha1pad_head_length]; omega
  have hb2 : (name ++ [128]).length ≤ j := by
    simp only [List.length_append, List.length_cons, List.length_nil]
    omega
  show (((name ++ [128]) ++ List.replicate _ 0) ++ be64Bytes _).getD j 0 = _
  rw [getD_append_left hb1, getD_append_right hb2, getD_replicate_zero]

theorem sha1pad_getD_len (name : List Nat) (j : Nat) :
    (sha1pad name).getD (aligned_message_size name.length - 8 + j) 0
      = (be64Bytes (name.length * 8)).getD j 0 := by
  have h9 : name.length + 9 ≤ aligned_message_size name.length := by
    unfold aligned_message_size; omega
  have hb1 : ((name ++ [128]) ++ List.replicate
      ((64 - (name.length + 9) % 64) % 64) 0).length
      ≤ aligned_message_size name.length - 8 + j := by
    rw [sha1pad_head_length]; omega
  show (((name ++ [128]) ++ List.replicate _ 0) ++ be64Bytes _).getD _ 0 = _
  rw [getD_append_right hb1, sha1pad_head_length]
  congr 1
  omega

theorem preprocessedMessage_def (name : List Nat) :
    preprocessedMessage name
      = ((msgOrAt (fillMessage name 0
            (List.replicate (aligned_message_size name.length / 4) 0))
          (name.length / 4)
          (swap_byte_order32 ((128 <<< ((3 - name.length % 4) * 8))
            % 4294967296))).set
        (aligned_message_size name.length / 4 - 2)
        (swap_byte_order32 (((name.length * 8 % 18446744073709551616) >>> 32)
          % 4294967296))).set
        (aligned_message_size name.length / 4 - 1)
        (swap_byte_order32 (name.length * 8 % 18446744073709551616
          % 4294967296)) := rfl

/-- The source's preprocessed word array is exactly the byte-swap of the
standard big-endian word split of the standard SHA-1 padding. -/
theorem preprocessed_eq (name : List Nat) (hname : ∀ c ∈ name, c < 256) :
    preprocessedMessage name
      = (toWordsBE (sha1pad name)).map swap_byte_order32 := by
  have h9 : name.length + 9 ≤ aligned_message_size name.length := by
    unfold aligned_message_size; omega
  have h64 : aligned_message_size name.length % 64 = 0 := by
    unfold aligned_message_size; omega
  have hL : 4 * (aligned_message_size name.length / 4)
      = aligned_message_size name.length := by omega
  have hW16 : 16 ≤ aligned_message_size name.length / 4 := by omega
  have hinlen : (msgOrAt (fillMessage name 0
      (List.replicate (aligned_message_size name.length / 4) 0))
      (name.length / 4)
      (swap_byte_order32 ((128 <<< ((3 - name.length % 4) * 8))
        % 4294967296))).length
      = aligned_message_size name.length / 4 := by
    rw [msgOrAt_length, fillMessage_length, List.length_replicate]
  have hlen1 : (preprocessedMessage name).length
      = aligned_message_size name.length / 4 := by
    rw [preprocessedMessage_def, List.length_set, List.length_set, hinlen]
  apply list_eq_of_getD
  · rw [hlen1, List.length_map, toWordsBE_length, sha1pad_length]
  · intro k
    rw [getD_map_zero _ swap32_zero]
    by_cases hkW : aligned_message_size name.length / 4 ≤ k
    · rw [getD_eq_zero_of_le (by rw [hlen1]; exact hkW),
        getD_eq_zero_of_le (by rw [toWordsBE_length, sha1pad_length]; omega)]
      rfl
    · push_neg at hkW
      have h4k : 4 * (k + 1) ≤ (sha1pad name).length := by
        rw [sha1pad_length]; omega
      rw [toWordsBE_getD k _ h4k, preprocessedMessage_def]
      by_cases hk1 : k = aligned_message_size name.length / 4 - 1
      · subst hk1
        rw [getD_set_self (by rw [List.length_set, hinlen]; omega)]
        rw [show 4 * (aligned_message_size name.length / 4 - 1)
            = aligned_message_size name.length - 8 + 4 by omega]
        rw [show aligned_message_size name.length - 8 + 4 + 1
            = aligned_message_size name.length - 8 + 5 by omega,
          show aligned_message_size name.length - 8 + 4 + 2
            = aligned_message_size name.length - 8 + 6 by omega,
          show aligned_message_size name.length - 8 + 4 + 3
            = aligned_message_size name.length - 8 + 7 by omega]
        rw [sha1pad_getD_len, sha1pad_getD_len, sha1pad_getD_len,
          sha1pad_getD_len]
        have g4 : (be64Bytes (name.length * 8)).getD 4 0
            = name.length * 8 / 16777216 % 256 := by
          show ((name.length * 8) >>> 24) % 256 = name.length * 8 / 16777216 % 256
          rw [Nat.shiftRight_eq_div_pow]
        have g5 : (be64Bytes (name.length * 8)).getD 5 0
            = name.length * 8 / 65536 % 256 := by
          show ((name.length * 8) >>> 16) % 256 = name.length * 8 / 65536 % 256
          rw [Nat.shiftRight_eq_div_pow]
        have g6 : (be64Bytes (name.length * 8)).getD 6 0
            = name.length * 8 / 256 % 256 := by
          show ((name.length * 8) >>> 8) % 256 = name.length * 8 / 256 % 256
          rw [Nat.shiftRight_eq_div_pow]
        have g7 : (be64Bytes (name.length * 8)).getD 7 0
            = name.length * 8 % 256 := rfl
        rw [g4, g5, g6, g7, beWord32_eq]
        refine congrArg swap_byte_order32 ?_
        have d1 : name.length * 8 % 18446744073709551616 % 4294967296
            = name.length * 8 % 4294967296 := by omega
        have d2 : name.length * 8 % 4294967296
            = 16777216 * (name.length * 8 / 16777216 % 256)
              + 65536 * (name.length * 8 / 65536 % 256)
              + 256 * (name.length * 8 / 256 % 256)
              + name.length * 8 % 256 := by omega
        omega
      by_cases hk2 : k = aligned_message_size name.length / 4 - 2
      · subst hk2
        rw [getD_set_ne (show aligned_message_size name.length / 4 - 1
            ≠ aligned_message_size name.length / 4 - 2 by omega),
          getD_set_self (by rw [hinlen]; omega)]
        rw [show 4 * (aligned_message_size name.length / 4 - 2)
            = aligned_message_size name.length - 8 + 0 by omega]
        rw [show aligned_message_size name.length - 8 + 0 + 1
            = aligned_message_size name.length - 8 + 1 by omega,
          show aligned_message_size name.length - 8 + 0 + 2
            = aligned_message_size name.length - 8 + 2 by omega,
          show aligned_message_size name.length - 8 + 0 + 3
            = aligned_message_size name.length - 8 + 3 by omega]
        rw [sha1pad_getD_len, sha1pad_getD_len, sha1pad_getD_len,
          sha1pad_getD_len]
        have g0 : (be64Bytes (name.length * 8)).getD 0 0
            = name.length * 8 / 72057594037927936 % 256 := by
          show ((name.length * 8) >>> 56) % 256 = name.length * 8 / 72057594037927936 % 256
          rw [Nat.shiftRight_eq_div_pow]
        have g1 : (be64Bytes (name.length * 8)).getD 1 0
            = name.length * 8 / 281474976710656 % 256 := by
          show ((name.length * 8) >>> 48) % 256 = name.length * 8 / 281474976710656 % 256
          rw [Nat.shiftRight_eq_div_pow]
        have g2 : (be64Bytes (name.length * 8)).getD 2 0
            = name.length * 8 / 1099511627776 % 256 := by
          show ((name.length * 8) >>> 40) % 256 = name.length * 8 / 1099511627776 % 256
          rw [Nat.shiftRight_eq_div_pow]
        have g3 : (be64Bytes (name.length * 8)).getD 3 0
            = name.length * 8 / 4294967296 % 256 := by
          show ((name.length * 8) >>> 32) % 256 = name.length * 8 / 4294967296 % 256
          rw [Nat.shiftRight_eq_div_pow]
        rw [g0, g1, g2, g3, beWord32_eq, Nat.shiftRight_eq_div_pow]
        refine congrArg swap_byte_order32 ?_
        have d1 : name.length * 8 % 18446744073709551616 / 2 ^ 32 % 4294967296
            = name.length * 8 / 4294967296 % 4294967296 := by norm_num; omega
        have d2 : name.length * 8 / 4294967296 % 4294967296
            = 16777216 * (name.length * 8 / 4294967296 / 16777216 % 256)
              + 65536 * (name.length * 8 / 4294967296 / 65536 % 256)
              + 256 * (name.length * 8 / 4294967296 / 256 % 256)
              + name.length * 8 / 4294967296 % 256 := by omega
        have m0 : name.length * 8 / 4294967296 / 16777216
            = name.length * 8 / 72057594037927936 := by
          rw [Nat.div_div_eq_div_mul]
        have m1 : name.length * 8 / 4294967296 / 65536
            = name.length * 8 / 281474976710656 := by
          rw [Nat.div_div_eq_div_mul]
        have m2 : name.length * 8 / 4294967296 / 256
            = name.length * 8 / 1099511627776 := by
          rw [Nat.div_div_eq_div_mul]
        omega
      · -- a data / terminator / zero word
        have hk3 : k ≤ aligned_message_size name.length / 4 - 3 := by omega
        rw [getD_set_ne (show aligned_message_size name.length / 4 - 1 ≠ k
            by omega),
          getD_set_ne (show aligned_message_size name.length / 4 - 2 ≠ k
            by omega)]
        have hfill : ∀ j, (fillMessage name 0
            (List.replicate (aligned_message_size name.length / 4) 0)).getD j 0
            = wordContrib name 0 j := by
          intro j
          rw [fillMessage_getD name 0 _ j (by
              intro i hi
              rw [List.length_replicate]
              omega),
            getD_replicate_zero, Nat.zero_or]
        by_cases hkq : k = name.length / 4
        · subst hkq
          rw [msgOrAt_getD_self (by
              rw [fillMessage_length, List.length_replicate]; omega)]
          rw [hfill, wordContrib_word _ name hname]
          have hsh : (3 - name.length % 4) * 8 ≤ 24 := by omega
          have hx80 : (128 <<< ((3 - name.length % 4) * 8)) % 4294967296
              = 128 <<< ((3 - name.length % 4) * 8) := by
            have h2 := byte_shift_mod 128 ((3 - name.length % 4) * 8)
              (by norm_num) hsh
            rwa [Nat.mod_eq_of_lt (show (128:Nat) < 4294967296 by norm_num)]
              at h2
          rw [hx80, ← swap32_lor]
          refine congrArg swap_byte_order32 ?_
          have hr : name.length % 4 = 0 ∨ name.length % 4 = 1
              ∨ name.length % 4 = 2 ∨ name.length % 4 = 3 := by omega
          rcases hr with hr | hr | hr | hr
          · rw [getD_eq_zero_of_le
                (show name.length ≤ 4 * (name.length / 4) by omega),
              getD_eq_zero_of_le
                (show name.length ≤ 4 * (name.length / 4) + 1 by omega),
              getD_eq_zero_of_le
                (show name.length ≤ 4 * (name.length / 4) + 2 by omega),
              getD_eq_zero_of_le
                (show name.length ≤ 4 * (name.length / 4) + 3 by omega),
              show 4 * (name.length / 4) = name.length by omega,
              sha1pad_getD_80,
              sha1pad_getD_zero name (name.length + 1) (by omega) (by omega),
              sha1pad_getD_zero name (name.length + 2) (by omega) (by omega),
              sha1pad_getD_zero name (name.length + 3) (by omega) (by omega),
              hr]
            simp [beWord32, Nat.zero_shiftLeft, Nat.or_zero, Nat.zero_or]
          · rw [getD_eq_zero_of_le
                (show name.length ≤ 4 * (name.length / 4) + 1 by omega),
              getD_eq_zero_of_le
                (show name.length ≤ 4 * (name.length / 4) + 2 by omega),
              getD_eq_zero_of_le
                (show name.length ≤ 4 * (name.length / 4) + 3 by omega),
              sha1pad_getD_data name (4 * (name.length / 4)) (by omega),
              show 4 * (name.length / 4) + 1 = name.length by omega,
              sha1pad_getD_80,
              sha1pad_getD_zero name (4 * (name.length / 4) + 2) (by omega)
                (by omega),
              sha1pad_getD_zero name (4 * (name.length / 4) + 3) (by omega)
                (by omega),
              hr]
            simp [beWord32, Nat.zero_shiftLeft, Nat.or_zero, Nat.zero_or,
              Nat.lor_assoc]
          · rw [getD_eq_zero_of_le
                (show name.length ≤ 4 * (name.length / 4) + 2 by omega),
              getD_eq_zero_of_le
                (show name.length ≤ 4 * (name.length / 4) + 3 by omega),
              sha1pad_getD_data name (4 * (name.length / 4)) (by omega),
              sha1pad_getD_data name (4 * (name.length / 4) + 1) (by omega),
              show 4 * (name.length / 4) + 2 = name.length by omega,
              sha1pad_getD_80,
              sha1pad_getD_zero name (4 * (name.length / 4) + 3) (by omega)
                (by omega),
              hr]
            simp [beWord32, Nat.zero_shiftLeft, Nat.or_zero, Nat.zero_or,
              Nat.lor_assoc]
          · rw [getD_eq_zero_of_le
                (show name.length ≤ 4 * (name.length / 4) + 3 by omega),
              sha1pad_getD_data name (4 * (name.length / 4)) (by omega),
              sha1pad_getD_data name (4 * (name.length / 4) + 1) (by omega),
              sha1pad_getD_data name (4 * (name.length / 4) + 2) (by omega),
              show 4 * (name.length / 4) + 3 = name.length by omega,
              sha1pad_getD_80, hr]
            simp [beWord32, Nat.zero_shiftLeft, Nat.or_zero, Nat.zero_or,
              Nat.lor_assoc]
        · rw [msgOrAt_getD_ne (fun h => hkq h.symm)]
          rw [hfill, wordContrib_word _ name hname]
          refine congrArg swap_byte_order32 ?_
          rcases Nat.lt_or_ge k (name.length / 4) with hlt | hge
          · rw [sha1pad_getD_data name (4 * k) (by omega),
              sha1pad_getD_data name (4 * k + 1) (by omega),
              sha1pad_getD_data name (4 * k + 2) (by omega),
              sha1pad_getD_data name (4 * k + 3) (by omega)]
          · have hgt : name.length / 4 < k := by
              rcases Nat.lt_or_ge (name.length / 4) k with h | h
              · exact h
              · exact absurd (Nat.le_antisymm hge h).symm hkq
            rw [sha1pad_getD_zero name (4 * k) (by omega) (by omega),
              sha1pad_getD_zero name (4 * k + 1) (by omega) (by omega),
              sha1pad_getD_zero name (4 * k + 2) (by omega) (by omega),
              sha1pad_getD_zero name (4 * k + 3) (by omega) (by omega),
              getD_eq_zero_of_le (show name.length ≤ 4 * k by omega),
              getD_eq_zero_of_le (show name.length ≤ 4 * k + 1 by omega),
              getD_eq_zero_of_le (show name.length ≤ 4 * k + 2 by omega),
              getD_eq_zero_of_le (show name.length ≤ 4 * k + 3 by omega)]

/-! ### Equivalence of the message schedule, rounds, and chunk loop -/

theorem rotate_left32_lt (x c : Nat) (hx : x < 4294967296) :
    rotate_left32 x c < 4294967296 := by
  have e : (2:Nat) ^ 32 = 4294967296 := by norm_num
  show ((x <<< c) % 4294967296) ||| (x >>> (32 - c)) < 4294967296
  have h1 : (x <<< c) % 4294967296 < 2 ^ 32 := by
    rw [e]; exact Nat.mod_lt _ (by norm_num)
  have h2 : x >>> (32 - c) < 2 ^ 32 := by
    rw [e]
    exact lt_of_le_of_lt
      (by rw [Nat.shiftRight_eq_div_pow]; exact Nat.div_le_self _ _) hx
  have h3 := Nat.or_lt_two_pow h1 h2
  rwa [e] at h3

theorem extendW_equiv : ∀ (cnt : Nat) (ws : List Nat),
    (∀ x ∈ ws, x < 4294967296) →
    extendW (ws.map swap_byte_order32) cnt
        = (sha1ExtendW ws cnt).map swap_byte_order32
      ∧ ∀ x ∈ sha1ExtendW ws cnt, x < 4294967296 := by
  intro cnt
  induction cnt with
  | zero => intro ws h; exact ⟨rfl, h⟩
  | succ cnt ih =>
    intro ws h
    have hg : ∀ i, ws.getD i 0 < 4294967296 :=
      fun i => getD_lt_of_forall h (by norm_num) i
    have e : (4294967296:Nat) = 2 ^ 32 := by norm_num
    have hX : (ws.getD (ws.length - 3) 0 ^^^ ws.getD (ws.length - 8) 0
        ^^^ ws.getD (ws.length - 14) 0 ^^^ ws.getD (ws.length - 16) 0)
        < 4294967296 := by
      rw [e]
      exact Nat.xor_lt_two_pow (Nat.xor_lt_two_pow (Nat.xor_lt_two_pow
        (by rw [← e]; exact hg _) (by rw [← e]; exact hg _))
        (by rw [← e]; exact hg _)) (by rw [← e]; exact hg _)
    have hone : extendOne (ws.map swap_byte_order32)
        = (sha1ExtendOne ws).map swap_byte_order32 := by
      unfold extendOne sha1ExtendOne
      rw [List.length_map]
      rw [getD_map_zero _ swap32_zero, getD_map_zero _ swap32_zero,
        getD_map_zero _ swap32_zero, getD_map_zero _ swap32_zero]
      rw [← swap32_xor, ← swap32_xor, ← swap32_xor]
      rw [swap32_swap32 _ hX]
      rw [List.map_append]
      rfl
    have hbound : ∀ x ∈ sha1ExtendOne ws, x < 4294967296 := by
      intro x hx
      unfold sha1ExtendOne at hx
      rcases List.mem_append.mp hx with hm | hm
      · exact h x hm
      · have hx1 : x = rotate_left32 (ws.getD (ws.length - 3) 0
            ^^^ ws.getD (ws.length - 8) 0 ^^^ ws.getD (ws.length - 14) 0
            ^^^ ws.getD (ws.length - 16) 0) 1 := by simpa using hm
        rw [hx1]
        exact rotate_left32_lt _ _ hX
    refine ⟨?_, (ih (sha1ExtendOne ws) hbound).2⟩
    show extendW (extendOne (ws.map swap_byte_order32)) cnt = _
    rw [hone]
    exact (ih (sha1ExtendOne ws) hbound).1

theorem foldl_congr_fn {α β : Type} (f g : β → α → β) (l : List α)
    (h : ∀ s j, f s j = g s j) : ∀ s, l.foldl f s = l.foldl g s := by
  induction l with
  | nil => intro s; rfl
  | cons a l ih =>
    intro s
    show l.foldl f (f s a) = l.foldl g (g s a)
    rw [h s a]
    exact ih _

theorem codeRound_eq (ws : List Nat) (hb : ∀ x ∈ ws, x < 4294967296)
    (st : Nat × Nat × Nat × Nat × Nat) (j : Nat) :
    codeRound (ws.map swap_byte_order32) st j = sha1Round ws st j := by
  rcases st with ⟨a, b, c, d, e⟩
  simp only [codeRound, sha1Round]
  rw [getD_map_zero _ swap32_zero,
    swap32_swap32 _ (getD_lt_of_forall hb (by norm_num) j)]

theorem processChunk_eq (hh : Nat × Nat × Nat × Nat × Nat) (chunk : List Nat)
    (hb : ∀ x ∈ chunk, x < 4294967296) :
    processChunk hh (chunk.map swap_byte_order32) = sha1ProcessChunk hh chunk := by
  unfold processChunk sha1ProcessChunk
  rw [(extendW_equiv 64 chunk hb).1]
  rw [foldl_congr_fn _ _ (List.range 80)
    (fun s j => codeRound_eq _ (extendW_equiv 64 chunk hb).2 s j) hh]

theorem processChunks_step (hh : Nat × Nat × Nat × Nat × Nat) (ws : List Nat)
    (h16 : 16 ≤ ws.length) :
    processChunks hh ws
      = processChunks (processChunk hh (ws.take 16)) (ws.drop 16) := by
  rcases ws with _ | ⟨w0, ws⟩
  · simp at h16
  rcases ws with _ | ⟨w1, ws⟩
  · simp at h16
  rcases ws with _ | ⟨w2, ws⟩
  · simp at h16
  rcases ws with _ | ⟨w3, ws⟩
  · simp at h16
  rcases ws with _ | ⟨w4, ws⟩
  · simp at h16
  rcases ws with _ | ⟨w5, ws⟩
  · simp at h16
  rcases ws with _ | ⟨w6, ws⟩
  · simp at h16
  rcases ws with _ | ⟨w7, ws⟩
  · simp at h16
  rcases ws with _ | ⟨w8, ws⟩
  · simp at h16
  rcases ws with _ | ⟨w9, ws⟩
  · simp at h16
  rcases ws with _ | ⟨w10, ws⟩
  · simp at h16
  rcases ws with _ | ⟨w11, ws⟩
  · simp at h16
  rcases ws with _ | ⟨w12, ws⟩
  · simp at h16
  rcases ws with _ | ⟨w13, ws⟩
  · simp at h16
  rcases ws with _ | ⟨w14, ws⟩
  · simp at h16
  rcases ws with _ | ⟨w15, ws⟩
  · simp at h16
  rw [show List.take 16 (w0 :: w1 :: w2 :: w3 :: w4 :: w5 :: w6 :: w7 :: w8 :: w9 :: w10 :: w11 :: w12 :: w13 :: w14 :: w15 :: ws)
      = [w0, w1, w2, w3, w4, w5, w6, w7, w8, w9, w10, w11, w12, w13, w14, w15]
      from rfl,
    show List.drop 16 (w0 :: w1 :: w2 :: w3 :: w4 :: w5 :: w6 :: w7 :: w8 :: w9 :: w10 :: w11 :: w12 :: w13 :: w14 :: w15 :: ws) = ws from rfl]
  simp only [processChunks]

theorem sha1ProcessChunks_step (hh : Nat × Nat × Nat × Nat × Nat)
    (ws : List Nat) (h16 : 16 ≤ ws.length) :
    sha1ProcessChunks hh ws
      = sha1ProcessChunks (sha1ProcessChunk hh (ws.take 16)) (ws.drop 16) := by
  rcases ws with _ | ⟨w0, ws⟩
  · simp at h16
  rcases ws with _ | ⟨w1, ws⟩
  · simp at h16
  rcases ws with _ | ⟨w2, ws⟩
  · simp at h16
  rcases ws with _ | ⟨w3, ws⟩
  · simp at h16
  rcases ws with _ | ⟨w4, ws⟩
  · simp at h16
  rcases ws with _ | ⟨w5, ws⟩
  · simp at h16
  rcases ws with _ | ⟨w6, ws⟩
  · simp at h16
  rcases ws with _ | ⟨w7, ws⟩
  · simp at h16
  rcases ws with _ | ⟨w8, ws⟩
  · simp at h16
  rcases ws with _ | ⟨w9, ws⟩
  · simp at h16
  rcases ws with _ | ⟨w10, ws⟩
  · simp at h16
  rcases ws with _ | ⟨w11, ws⟩
  · simp at h16
  rcases ws with _ | ⟨w12, ws⟩
  · simp at h16
  rcases ws with _ | ⟨w13, ws⟩
  · simp at h16
  rcases ws with _ | ⟨w14, ws⟩
  · simp at h16
  rcases ws with _ | ⟨w15, ws⟩
  · simp at h16
  rw [show List.take 16 (w0 :: w1 :: w2 :: w3 :: w4 :: w5 :: w6 :: w7 :: w8 :: w9 :: w10 :: w11 :: w12 :: w13 :: w14 :: w15 :: ws)
      = [w0, w1, w2, w3, w4, w5, w6, w7, w8, w9, w10, w11, w12, w13, w14, w15]
      from rfl,
    show List.drop 16 (w0 :: w1 :: w2 :: w3 :: w4 :: w5 :: w6 :: w7 :: w8 :: w9 :: w10 :: w11 :: w12 :: w13 :: w14 :: w15 :: ws) = ws from rfl]
  simp only [sha1ProcessChunks]

theorem processChunks_eq_aux : ∀ (N : Nat) (ws : List Nat)
    (hh : Nat × Nat × Nat × Nat × Nat), ws.length ≤ N →
    (∀ x ∈ ws, x < 4294967296) → 16 ∣ ws.length →
    processChunks hh (ws.map swap_byte_order32) = sha1ProcessChunks hh ws := by
  intro N
  induction N with
  | zero =>
    intro ws hh hlen hb hdvd
    have hnil : ws = [] := List.eq_nil_of_length_eq_zero (by omega)
    subst hnil
    rfl
  | succ N ih =>
    intro ws hh hlen hb hdvd
    rcases ws with _ | ⟨w, ws'⟩
    · rfl
    · have h16 : 16 ≤ (w :: ws').length := by
        rcases hdvd with ⟨c, hc⟩
        simp only [List.length_cons] at hc ⊢
        omega
      have h16m : 16 ≤ ((w :: ws').map swap_byte_order32).length := by
        rw [List.length_map]; exact h16
      rw [processChunks_step _ _ h16m, sha1ProcessChunks_step _ _ h16]
      rw [← List.map_take, ← List.map_drop]
      rw [processChunk_eq hh _ (fun x hx => hb x (List.take_subset _ _ hx))]
      apply ih
      · rw [List.length_drop]
        simp only [List.length_cons] at hlen ⊢
        omega
      · exact fun x hx => hb x (List.drop_subset _ _ hx)
      · rw [List.length_drop]
        rcases hdvd with ⟨c, hc⟩
        exact ⟨c - 1, by simp only [List.length_cons] at hc ⊢; omega⟩

/-- All five state words are below `2^32`. -/
def bounded5 : Nat × Nat × Nat × Nat × Nat → Prop
  | (a, b, c, d, e) => a < 4294967296 ∧ b < 4294967296 ∧ c < 4294967296
      ∧ d < 4294967296 ∧ e < 4294967296

theorem sha1ProcessChunk_lt (hh : Nat × Nat × Nat × Nat × Nat)
    (chunk : List Nat) : bounded5 (sha1ProcessChunk hh chunk) := by
  rcases hh with ⟨h0, h1, h2, h3, h4⟩
  unfold sha1ProcessChunk
  rcases (List.range 80).foldl (sha1Round (sha1ExtendW chunk 64))
      (h0, h1, h2, h3, h4) with ⟨a, b, c, d, e⟩
  exact ⟨Nat.mod_lt _ (by norm_num), Nat.mod_lt _ (by norm_num),
    Nat.mod_lt _ (by norm_num), Nat.mod_lt _ (by norm_num),
    Nat.mod_lt _ (by norm_num)⟩

theorem sha1ProcessChunks_lt : ∀ (N : Nat) (ws : List Nat)
    (hh : Nat × Nat × Nat × Nat × Nat), ws.length ≤ N → 16 ∣ ws.length →
    bounded5 hh → bounded5 (sha1ProcessChunks hh ws) := by
  intro N
  induction N with
  | zero =>
    intro ws hh hlen hdvd hb
    have hnil : ws = [] := List.eq_nil_of_length_eq_zero (by omega)
    subst hnil
    exact hb
  | succ N ih =>
    intro ws hh hlen hdvd hb
    rcases ws with _ | ⟨w, ws'⟩
    · exact hb
    · have h16 : 16 ≤ (w :: ws').length := by
        rcases hdvd with ⟨c, hc⟩
        simp only [List.length_cons] at hc ⊢
        omega
      rw [sha1ProcessChunks_step _ _ h16]
      apply ih
      · rw [List.length_drop]
        simp only [List.length_cons] at hlen ⊢
        omega
      · rw [List.length_drop]
        rcases hdvd with ⟨c, hc⟩
        exact ⟨c - 1, by simp only [List.length_cons] at hc ⊢; omega⟩
      · exact sha1ProcessChunk_lt _ _

/-- `make_id` computes the first eight digest bytes of the standard SHA-1 of
the name's bytes, folded little-endian into a 64-bit integer. -/
theorem make_id_eq_sha1 (name : List Nat) (hname : ∀ c ∈ name, c < 256) :
    make_id name = bytesToScalar ((sha1 name).take 8) := by
  unfold make_id sha1
  rw [preprocessed_eq name hname]
  have hb := toWordsBE_mem_lt (sha1pad name)
  have hdvd : 16 ∣ (toWordsBE (sha1pad name)).length := by
    rw [toWordsBE_length, sha1pad_length]
    have h64 : aligned_message_size name.length % 64 = 0 := by
      unfold aligned_message_size; omega
    omega
  rw [processChunks_eq_aux (toWordsBE (sha1pad name)).length _
    (0x67452301, 0xEFCDAB89, 0x98BADCFE, 0x10325476, 0xC3D2E1F0)
    (le_refl _) hb hdvd]
  have hres := sha1ProcessChunks_lt (toWordsBE (sha1pad name)).length _
    (0x67452301, 0xEFCDAB89, 0x98BADCFE, 0x10325476, 0xC3D2E1F0)
    (le_refl _) hdvd (by exact ⟨by norm_num, by norm_num, by norm_num,
      by norm_num, by norm_num⟩)
  rcases hR : sha1ProcessChunks
      (0x67452301, 0xEFCDAB89, 0x98BADCFE, 0x10325476, 0xC3D2E1F0)
      (toWordsBE (sha1pad name)) with ⟨h0, h1, h2, h3, h4⟩
  rw [hR] at hres
  simp only [bounded5] at hres
  show swap_byte_order64 ((h0 <<< 32) ||| h1)
    = bytesToScalar ((be32Bytes h0 ++ be32Bytes h1 ++ be32Bytes h2
        ++ be32Bytes h3 ++ be32Bytes h4).take 8)
  have htake : (be32Bytes h0 ++ be32Bytes h1 ++ be32Bytes h2 ++ be32Bytes h3
      ++ be32Bytes h4).take 8 = be32Bytes h0 ++ be32Bytes h1 := by
    have hassoc : be32Bytes h0 ++ be32Bytes h1 ++ be32Bytes h2 ++ be32Bytes h3
        ++ be32Bytes h4
        = (be32Bytes h0 ++ be32Bytes h1)
          ++ (be32Bytes h2 ++ be32Bytes h3 ++ be32Bytes h4) := by
      simp [List.append_assoc]
    rw [hassoc, List.take_left' (by simp [be32Bytes])]
  rw [htake]
  exact make_id_fold h0 h1 hres.1 hres.2.1

set_option maxRecDepth 1000000 in
/-- C4: `make_id` is a pure, deterministic function of its ASCII name
argument: for every name whose bytes are ASCII it equals the first 8 bytes
of the standard SHA-1 digest of the name's bytes (no trailing null) folded
into a 64-bit integer under the fixed little-endian byte-folding
convention; the reference `sha1` is anchored by the published "abc" test
vector; and `make_id "v1::person"` and `make_id "v1::student"` are two
distinct nonzero ids. -/
theorem c4_make_id_sha1 :
    (∀ name : List Nat, (∀ c ∈ name, c < 128) →
        make_id name = bytesToScalar ((sha1 name).take 8)) ∧
      sha1 [97, 98, 99] = [169, 153, 62, 54, 71, 6, 129, 106, 186, 62, 37,
        113, 120, 80, 194, 108, 156, 208, 216, 157] ∧
      make_id [118, 49, 58, 58, 112, 101, 114, 115, 111, 110]
          ≠ make_id [118, 49, 58, 58, 115, 116, 117, 100, 101, 110, 116] ∧
      make_id [118, 49, 58, 58, 112, 101, 114, 115, 111, 110] ≠ 0 ∧
      make_id [118, 49, 58, 58, 115, 116, 117, 100, 101, 110, 116] ≠ 0 :=
  ⟨fun name h =>
      make_id_eq_sha1 name (fun c hc => lt_trans (h c hc) (by norm_num)),
    by decide, by decide, by decide, by decide⟩

set_option maxRecDepth 1000000 in
/-- Closed-instance witness for `c4_make_id_sha1`: the `"v1::person"` name
is ASCII, and its id is the little-endian fold of the first 8 bytes of its
SHA-1 digest. -/
theorem c4_make_id_sha1_witness :
    (∀ c ∈ [118, 49, 58, 58, 112, 101, 114, 115, 111, 110], c < 128) ∧
      make_id [118, 49, 58, 58, 112, 101, 114, 115, 111, 110]
        = bytesToScalar ((sha1 [118, 49, 58, 58, 112, 101, 114, 115, 111,
            110]).take 8) :=
  ⟨by decide, c4_make_id_sha1.1 _ (by decide)⟩

end ZppSer
